import Mathlib

/-!
Verification of the `citation-js-extra` bibliography library.

This development gives a shallow embedding of the library's pure core
(`src/index.ts`) over `List Char` strings:

* the constructor's custom-field extraction loop (`mkCustom`),
* `filter` and `sort` on entries (the JavaScript stable `Array.sort` with the
  source's comparator is modelled by a stable insertion sort),
* `sanitizeUrl`, `escapeAttr`, `escapeHtml`, `hashString` (32-bit FNV-1a, with
  `Math.imul`/`>>> 0` rendered as arithmetic modulo 2^32) and the hex rendering
  `Nat.toString 16`,
* the tag-boundary tokenizer `html.split(/(<[^>]*>)/g)` (`splitTags`), the
  anchor/script/style tag state machine (`updLSt`), title linking
  (`linkTitle`), badge rendering (`renderBadges`, including JavaScript's
  `String.replace` `$`-substitution rules), title-link resolution
  (`resolveTitleLink`), and the bare-URL linkifier (`linkifyBareUrls`).

JavaScript `Record<string, string>` objects are modelled as association lists
with unique-key update; strings are `List Char` (code points; the sources only
exercise the basic multilingual plane where this agrees with UTF-16 units).
-/

namespace CJX

/-- Strings of the embedded program: lists of characters. -/
abbrev Str := List Char

/-- Convert a Lean string literal to the embedded string type. -/
def strL (s : String) : Str := s.data

/-- JavaScript object property read (own properties): first binding wins. -/
def aget (m : List (Str × Str)) (k : Str) : Option Str :=
  match m with
  | [] => none
  | (k', v) :: rest => if k' = k then some v else aget rest k

/-- JavaScript object property write: overwrite an existing key in place,
otherwise append the new binding. -/
def aset (m : List (Str × Str)) (k v : Str) : List (Str × Str) :=
  match m with
  | [] => [(k, v)]
  | (k', v') :: rest => if k' = k then (k', v) :: rest else (k', v') :: aset rest k v

/-- A parsed bibliography entry (`BibEntry` in `src/types.ts`): the CSL record
and raw BibTeX record are field maps, `custom` is the preserved-field map. -/
structure Entry where
  key : Str
  year : Option Int
  custom : List (Str × Str)
  raw : List (Str × Str)
  csl : List (Str × Str)
deriving DecidableEq

/-- The constructor's custom-field loop (`src/index.ts` lines 41-44):
`for (const f of this.customFieldNames) if (raw[f] != null) custom[f] = String(raw[f])`. -/
def mkCustom (customFieldNames : List Str) (raw : List (Str × Str)) : List (Str × Str) :=
  customFieldNames.foldl
    (fun acc f =>
      match aget raw f with
      | some v => aset acc f v
      | none => acc)
    []

/-- `Bibliography.filter` (`src/index.ts` lines 66-70): keep entries whose
`custom` map equals every criterion exactly. -/
def filterEntries (entries : List Entry) (criteria : List (Str × Str)) : List Entry :=
  entries.filter fun e => criteria.all fun kv => aget e.custom kv.1 == some kv.2

/-- Sort keys used by `Bibliography.sort`: a number (`year`, with `null ?? 0`)
or a custom-field string (`?? ""`). A single call only ever compares values of
one shape; the cross-shape cases are arbitrary tie-breaks that never arise. -/
inductive SVal where
  | num (n : Int)
  | str (s : Str)
deriving DecidableEq

/-- JavaScript `<` on two strings: lexicographic by code unit. -/
def strLtB : Str → Str → Bool
  | [], [] => false
  | [], _ :: _ => true
  | _ :: _, [] => false
  | a :: as, b :: bs =>
    if a.toNat < b.toNat then true
    else if b.toNat < a.toNat then false
    else strLtB as bs

/-- JavaScript `<` on the two kinds of sort values used by `sort`. -/
def svLt : SVal → SVal → Bool
  | .num a, .num b => decide (a < b)
  | .str a, .str b => strLtB a b
  | .num _, .str _ => true
  | .str _, .num _ => false

/-- The sort key of an entry (`src/index.ts` lines 84-85):
`by === "year" ? (e.year ?? 0) : (e.custom[by] ?? "")`. -/
def sortVal (sortBy : Str) (e : Entry) : SVal :=
  if sortBy = strL "year" then .num (e.year.getD 0) else .str ((aget e.custom sortBy).getD [])

/-- The ascending comparator of `Bibliography.sort` (line 86):
`va < vb ? -1 : va > vb ? 1 : 0`. -/
def cmpE (sortBy : Str) (a b : Entry) : Int :=
  if svLt (sortVal sortBy a) (sortVal sortBy b) then -1
  else if svLt (sortVal sortBy b) (sortVal sortBy a) then 1
  else 0

/-- Stable insertion of `x` into the sorted list of the elements that came
after `x` in the input: `x` walks past exactly the elements the comparator
orders strictly before it and stops in front of the first tied or larger one,
so tied elements keep their input order — the tie behaviour of the stable
JavaScript `Array.prototype.sort`. -/
def insertE (lt : Entry → Entry → Bool) (x : Entry) : List Entry → List Entry
  | [] => [x]
  | y :: ys => if lt y x then y :: insertE lt x ys else x :: y :: ys

/-- Stable sort by a strict comparator (models the stable `Array.sort`). -/
def insSort (lt : Entry → Entry → Bool) : List Entry → List Entry
  | [] => []
  | x :: xs => insertE lt x (insSort lt xs)

/-- `Bibliography.sort` (`src/index.ts` lines 79-89): sorted copy of `entries`,
comparator sign flipped when `order === "desc"`. -/
def sortEntries (entries : List Entry) (sortBy order : Str) : List Entry :=
  insSort
    (fun a b => (if order = strL "desc" then -(cmpE sortBy a b) else cmpE sortBy a b) < 0)
    entries

/-- The whitespace class trimmed by JavaScript `String.trim` (ASCII part). -/
def isWsJ (c : Char) : Bool :=
  c = ' ' || c = '\t' || c = '\n' || c = '\r' || c = '\x0b' || c = '\x0c'

/-- JavaScript `String.trim`. -/
def trimL (s : Str) : Str :=
  ((s.dropWhile isWsJ).reverse.dropWhile isWsJ).reverse

/-- `/^https?:\/\//i.test s` : case-insensitive `http://` or `https://`. -/
def hasHttpPre (s : Str) : Bool :=
  (strL "http://").isPrefixOf (s.map Char.toLower)
    || (strL "https://").isPrefixOf (s.map Char.toLower)

/-- `/^mailto:/i.test s`. -/
def hasMailtoPre (s : Str) : Bool :=
  (strL "mailto:").isPrefixOf (s.map Char.toLower)

/-- `sanitizeUrl` (`src/index.ts` lines 395-402): trim, reject empty, accept
only `http(s)://` and `mailto:` prefixes (case-insensitive). -/
def sanitizeUrl (url : Str) : Option Str :=
  let t := trimL url
  if t = [] then none
  else if hasHttpPre t || hasMailtoPre t then some t
  else none

/-- `s.replace(/c/g, r)` for a single character `c`. -/
def repC (c : Char) (r : Str) (s : Str) : Str :=
  s.flatMap fun x => if x = c then r else [x]

/-- `escapeAttr` (lines 434-436): `&` then `"` then `<`, in source order. -/
def escapeAttr (s : Str) : Str :=
  repC '<' (strL "&lt;") (repC '"' (strL "&quot;") (repC '&' (strL "&amp;") s))

/-- `escapeHtml` (lines 438-445). -/
def escapeHtml (s : Str) : Str :=
  repC '\'' (strL "&#39;")
    (repC '"' (strL "&quot;")
      (repC '>' (strL "&gt;")
        (repC '<' (strL "&lt;")
          (repC '&' (strL "&amp;") s))))

/-- One step of the FNV-1a loop (lines 458-461): `h ^= c; h = Math.imul(h, 0x01000193)`,
on the unsigned 32-bit residue. -/
def fnvStep (h : Nat) (c : Char) : Nat :=
  ((Nat.xor h c.toNat) * 0x01000193) % 4294967296

/-- `hashString` (lines 456-463): 32-bit FNV-1a over the code units, as the
final `h >>> 0` unsigned value. -/
def hashString (s : Str) : Nat :=
  s.foldl fnvStep 0x811c9dc5

/-- One hex digit, lowercase (as produced by `Number.toString(16)`). -/
def hexDig (n : Nat) : Char :=
  if n < 10 then Char.ofNat (48 + n) else Char.ofNat (87 + n)

/-- Little-endian hex digits of `n` (fuelled; `fuel ≥ n` is enough). -/
def hexRev : Nat → Nat → Str
  | 0, _ => []
  | fuel + 1, n => if n = 0 then [] else hexDig (n % 16) :: hexRev fuel (n / 16)

/-- `n.toString(16)` for natural `n`. -/
def toHex (n : Nat) : Str :=
  if n = 0 then ['0'] else (hexRev n n).reverse

/-- The registration name derived for raw CSL style text
(`Bibliography.registerStyle`, line 162): `custom-${hashString(xml)}`. -/
def styleName (xml : Str) : Str :=
  strL "custom-" ++ toHex (hashString xml)

/-- Split off everything up to and including the first `>`:
`splitAtGt s = some (ins, after)` with `s = ins ++ '>' :: after`, `'>' ∉ ins`. -/
def splitAtGt : Str → Option (Str × Str)
  | [] => none
  | c :: rest =>
    if c = '>' then some ([], rest)
    else (splitAtGt rest).map fun pr => (c :: pr.1, pr.2)

/-- Leftmost match of the tag regex `<[^>]*>`:
`findTag s = some (pre, tag, rest)` splits `s` as `pre ++ tag ++ rest` where
`tag` is the first `<...>` chunk and `pre` is `<`-free. -/
def findTag : Str → Option (Str × Str × Str)
  | [] => none
  | c :: rest =>
    if c = '<' then
      match splitAtGt rest with
      | some (ins, after) => some ([], '<' :: ins ++ ['>'], after)
      | none => none
    else (findTag rest).map fun pr => (c :: pr.1, pr.2.1, pr.2.2)

/-- Fuelled worker for `html.split(/(<[^>]*>)/g)`. -/
def splitTagsF : Nat → Str → List Str
  | 0, s => [s]
  | fuel + 1, s =>
    match findTag s with
    | none => [s]
    | some (pre, tag, rest) => pre :: tag :: splitTagsF fuel rest

/-- `html.split(/(<[^>]*>)/g)`: text and tag tokens, captured tags included,
empty text pieces between adjacent tags and at the ends included. -/
def splitTags (s : Str) : List Str := splitTagsF s.length s

/-- The three booleans tracked while scanning tokens
(`insideAnchor` / `insideScript` / `insideStyle`). -/
structure LSt where
  anc : Bool
  scr : Bool
  stl : Bool
deriving DecidableEq

/-- JavaScript `\w` (ASCII word character), for the `\b` boundary after a tag name. -/
def isWordC (c : Char) : Bool := c.isAlphanum || c = '_'

/-- Strip `p` from the front of `s` if it is a prefix. -/
def dropPre? : Str → Str → Option Str
  | [], s => some s
  | _ :: _, [] => none
  | a :: as, b :: bs => if a = b then dropPre? as bs else none

/-- `/^p\b/.test low` for a literal pattern `p` (e.g. `"<a"`): `p` is a prefix
and the next character, if any, is not a word character. -/
def tagTest (p : Str) (low : Str) : Bool :=
  match dropPre? p low with
  | none => false
  | some [] => true
  | some (c :: _) => !isWordC c

/-- The six tag checks updating the scan state (`src/index.ts` lines 249-255
and 328-334), applied to the lowercased tag token. -/
def updLSt (tok : Str) (st : LSt) : LSt :=
  let low := tok.map Char.toLower
  let st1 := if tagTest (strL "<a") low then { st with anc := true } else st
  let st2 := if tagTest (strL "</a") low then { st1 with anc := false } else st1
  let st3 := if tagTest (strL "<script") low then { st2 with scr := true } else st2
  let st4 := if tagTest (strL "</script") low then { st3 with scr := false } else st3
  let st5 := if tagTest (strL "<style") low then { st4 with stl := true } else st4
  if tagTest (strL "</style") low then { st5 with stl := false } else st5

/-- `token.startsWith("<")`. -/
def isTagTok : Str → Bool
  | [] => false
  | c :: _ => c = '<'

/-- Any of the three states active (the token is skipped). -/
def lact (st : LSt) : Bool := st.anc || st.scr || st.stl

/-- The character class of the bare-URL regex body: `[^\s<>"',;)]`. -/
def isUrlC (c : Char) : Bool :=
  !(isWsJ c || c = '<' || c = '>' || c = '"' || c = '\'' || c = ',' || c = ';' || c = ')')

/-- Match the scheme part `https?:\/\/` at the start of `s`. -/
def schemeSplit (s : Str) : Option (Str × Str) :=
  if (strL "https://").isPrefixOf s then some (strL "https://", s.drop 8)
  else if (strL "http://").isPrefixOf s then some (strL "http://", s.drop 7)
  else none

/-- Match `(https?:\/\/[^\s<>"',;)]+)` at the start of `s`; on success return
the (greedy) match and the remainder. -/
def urlMatchAt (s : Str) : Option (Str × Str) :=
  match schemeSplit s with
  | none => none
  | some (sch, rest) =>
    let u := rest.takeWhile isUrlC
    if u = [] then none else some (sch ++ u, rest.dropWhile isUrlC)

/-- Trailing sentence punctuation stripped from a matched URL: `[.,;:!?)]`. -/
def isPunctT (c : Char) : Bool :=
  c = '.' || c = ',' || c = ';' || c = ':' || c = '!' || c = '?' || c = ')'

/-- `match.replace(/[.,;:!?)]+$/, "")` together with the stripped tail:
`trimPunct m = (trimmed, trailing)` with `m = trimmed ++ trailing`. -/
def trimPunct (m : Str) : Str × Str :=
  ((m.reverse.dropWhile isPunctT).reverse, (m.reverse.takeWhile isPunctT).reverse)

/-- The opening anchor tag written by both linkifiers:
`<a href="${escapeAttr u}">`. -/
def aOpen (u : Str) : Str :=
  strL "<a href=" ++ '"' :: escapeAttr u ++ ['"', '>']

/-- The anchor written for a bare URL:
`<a href="${escapeAttr(trimmed)}">${trimmed}</a>`. -/
def anchorFor (t : Str) : Str :=
  aOpen t ++ t ++ strL "</a>"

/-- Fuelled worker for `token.replace(urlRegex, ...)` inside `linkifyBareUrls`:
scan left to right, wrap each (greedy, leftmost) URL match, keep the trailing
punctuation outside the anchor. -/
def linkifyTextF : Nat → Str → Str
  | _, [] => []
  | 0, s => s
  | fuel + 1, c :: rest =>
    match urlMatchAt (c :: rest) with
    | none => c :: linkifyTextF fuel rest
    | some (m, r) => anchorFor (trimPunct m).1 ++ (trimPunct m).2 ++ linkifyTextF fuel r

/-- `token.replace(urlRegex, ...)` on one text token. -/
def linkifyText (s : Str) : Str := linkifyTextF s.length s

/-- The token scan of `linkifyBareUrls` (lines 326-351). -/
def procLink : List Str → LSt → List Str
  | [], _ => []
  | tok :: toks, st =>
    if isTagTok tok then tok :: procLink toks (updLSt tok st)
    else if lact st then tok :: procLink toks st
    else linkifyText tok :: procLink toks st

/-- `linkifyBareUrls` (`src/index.ts` lines 317-354). -/
def linkifyBareUrls (s : Str) : Str :=
  (procLink (splitTags s) ⟨false, false, false⟩).flatten

/-- Bare-URL input predicate: every `<` is eventually followed by a `>`
(no dangling `<`); holds for well-formed HTML and for the library's own
rendered output. -/
def noDangling : Str → Bool
  | [] => true
  | c :: rest => (!(c = '<') || rest.contains '>') && noDangling rest

/-- Fuelled mirror of `linkifyTextF` collecting the `href` values it writes. -/
def hrefsTextF : Nat → Str → List Str
  | _, [] => []
  | 0, _ => []
  | fuel + 1, c :: rest =>
    match urlMatchAt (c :: rest) with
    | none => hrefsTextF fuel rest
    | some (m, r) => escapeAttr (trimPunct m).1 :: hrefsTextF fuel r

/-- Mirror of `procLink` collecting the `href` values written into anchors. -/
def hrefsOfToks : List Str → LSt → List Str
  | [], _ => []
  | tok :: toks, st =>
    if isTagTok tok then hrefsOfToks toks (updLSt tok st)
    else if lact st then hrefsOfToks toks st
    else hrefsTextF tok.length tok ++ hrefsOfToks toks st

/-- All `href` attribute values of anchors inserted by `linkifyBareUrls s`. -/
def insertedHrefs (s : Str) : List Str :=
  hrefsOfToks (splitTags s) ⟨false, false, false⟩

/-- `buildHtmlTextPattern` (lines 404-428), one character: the list of literal
alternatives the generated regex accepts for that character of the title.
`escapeRegex` only affects the regex text, not the strings accepted. -/
def charAlts (c : Char) : List Str :=
  if c = '&' then [strL "&amp;", strL "&#38;"]
  else if c = '<' then [strL "&lt;"]
  else if c = '>' then [strL "&gt;"]
  else if c = '"' then [strL "&quot;", strL "&#34;"]
  else if c = '\'' then [strL "&#39;", strL "&apos;"]
  else [[c]]

/-- `buildHtmlTextPattern` as a sequence of per-character alternations. -/
def buildHtmlTextPattern (title : Str) : List (List Str) :=
  title.map charAlts

/-- Backtracking match of the generated pattern at the start of `s`:
alternatives are tried in regex order; on success the matched prefix is
returned. -/
def matchAtP : List (List Str) → Str → Option Str
  | [], _ => some []
  | alts :: ps, s =>
    alts.findSome? fun a =>
      if a.isPrefixOf s then (matchAtP ps (s.drop a.length)).map fun m => a ++ m
      else none

/-- Leftmost match of the pattern in `s`: `some (pre, m, post)` splits `s` as
`pre ++ m ++ post` where `m` is the first match. -/
def firstMatchSplit (pat : List (List Str)) : Str → Option (Str × Str × Str)
  | [] =>
    match matchAtP pat [] with
    | some m => some ([], m, [])
    | none => none
  | c :: rest =>
    match matchAtP pat (c :: rest) with
    | some m => some ([], m, (c :: rest).drop m.length)
    | none =>
      match firstMatchSplit pat rest with
      | some (pre, m, post) => some (c :: pre, m, post)
      | none => none

/-- The anchor replacement written by `linkTitle`:
`<a href="${escapeAttr(url)}">${match}</a>`. -/
def titleAnchor (url m : Str) : Str :=
  aOpen url ++ m ++ strL "</a>"

/-- `token.replace(regex, cb)` (no `g` flag): replace the first match only. -/
def replaceFirstTok (pat : List (List Str)) (url tok : Str) : Option Str :=
  match firstMatchSplit pat tok with
  | none => none
  | some (pre, m, post) => some (pre ++ titleAnchor url m ++ post)

/-- Scan state of `linkTitle`: the three tag booleans plus `linked`. -/
structure TSt where
  ls : LSt
  linked : Bool
deriving DecidableEq

/-- The token scan of `linkTitle` (lines 247-270). -/
def procTitle (pat : List (List Str)) (url : Str) : List Str → TSt → List Str
  | [], _ => []
  | tok :: toks, st =>
    if isTagTok tok then tok :: procTitle pat url toks ⟨updLSt tok st.ls, st.linked⟩
    else if st.linked || lact st.ls then tok :: procTitle pat url toks st
    else
      match replaceFirstTok pat url tok with
      | none => tok :: procTitle pat url toks st
      | some tok' => tok' :: procTitle pat url toks ⟨st.ls, true⟩

/-- `Bibliography.linkTitle` (lines 233-273). -/
def linkTitle (html title url : Str) : Str :=
  let pat := buildHtmlTextPattern title
  if pat = [] then html
  else (procTitle pat url (splitTags html) ⟨⟨false, false, false⟩, false⟩).flatten

/-- Mirror of `procTitle` reporting whether any replacement would happen:
true iff the pattern matches in some text token scanned with all three states
inactive (and no earlier replacement made). -/
def anyEligMatch (pat : List (List Str)) : List Str → TSt → Bool
  | [], _ => false
  | tok :: toks, st =>
    if isTagTok tok then anyEligMatch pat toks ⟨updLSt tok st.ls, st.linked⟩
    else if st.linked || lact st.ls then anyEligMatch pat toks st
    else
      match firstMatchSplit pat tok with
      | none => anyEligMatch pat toks st
      | some _ => true

/-- A badge descriptor (`BadgeConfig` in `src/types.ts`). The optional
validating regex is abstracted as a matcher returning, on success, the whole
match and the optional first capture group. -/
structure Badge where
  field : Str
  label : Str
  url : Str
  mtch : Option (Str → Option (Str × Option Str))
  className : Option Str

/-- ECMAScript `GetSubstitution` for a replacement string against a pattern
with no capture groups: `$$` gives `$`, `$&` the matched text, a backquoted
`$` the text before the match, `$'` the text after; anything else (including
`$<digit>`, since the pattern has no groups) is literal. -/
def dollarExpand (matched pre post : Str) : Str → Str
  | [] => []
  | [c] => [c]
  | c :: d :: r =>
    if c = '$' then
      if d = '$' then '$' :: dollarExpand matched pre post r
      else if d = '&' then matched ++ dollarExpand matched pre post r
      else if d = Char.ofNat 96 then pre ++ dollarExpand matched pre post r
      else if d = '\'' then post ++ dollarExpand matched pre post r
      else '$' :: dollarExpand matched pre post (d :: r)
    else c :: dollarExpand matched pre post (d :: r)

/-- Worker for `url.replace(/\$1/g, insert)`: `acc` is the part of the
original string before the current position (the `$`-backquote context). -/
def subDollar1A (insert : Str) : Str → Str → Str
  | _, [] => []
  | _, [c] => [c]
  | acc, c :: d :: r =>
    if c = '$' then
      if d = '1' then
        dollarExpand (strL "$1") acc r insert ++ subDollar1A insert (acc ++ strL "$1") r
      else c :: subDollar1A insert (acc ++ [c]) (d :: r)
    else c :: subDollar1A insert (acc ++ [c]) (d :: r)

/-- `badge.url.replace(/\$1/g, insertValue)` with JavaScript's replacement
string semantics. -/
def subDollar1 (url insert : Str) : Str := subDollar1A insert [] url

/-- Modelled from the spec: “Substitute the insertion value for every
placeholder occurrence in the URL template” — plain textual substitution of
`$1`, with no `$`-escape processing of the inserted value. -/
def plainSub1 (insert : Str) : Str → Str
  | [] => []
  | [c] => [c]
  | c :: d :: r =>
    if c = '$' then
      if d = '1' then insert ++ plainSub1 insert r
      else c :: plainSub1 insert (d :: r)
    else c :: plainSub1 insert (d :: r)

/-- Steps 3-5 of one badge (lines 293-300): substitute into the URL template,
sanitize, and emit the anchor. -/
def badgeFinish (b : Badge) (insert : Str) : Option Str :=
  match sanitizeUrl (subDollar1 b.url insert) with
  | none => none
  | some safe =>
    let cls :=
      match b.className with
      | some c => strL " class=" ++ '"' :: escapeAttr c ++ ['"']
      | none => []
    some (strL "<a" ++ cls ++ strL " href=" ++ '"' :: escapeAttr safe ++ '"' :: '>' ::
      escapeHtml b.label ++ strL "</a>")

/-- The loop body of `renderBadges` (lines 278-301) for one descriptor:
`none` when the descriptor is skipped. -/
def badgePart (e : Entry) (b : Badge) : Option Str :=
  match (aget e.raw b.field).orElse fun _ => aget e.custom b.field with
  | none => none
  | some strValue =>
    match b.mtch with
    | some f =>
      match f strValue with
      | none => none
      | some (whole, g1) => badgeFinish b (g1.getD whole)
    | none => badgeFinish b strValue

/-- `parts.join(" ")`. -/
def joinSpace : List Str → Str
  | [] => []
  | [p] => p
  | p :: ps => p ++ ' ' :: joinSpace ps

/-- `Bibliography.renderBadges` (lines 275-305). -/
def renderBadges (e : Entry) (badges : List Badge) : Str :=
  let parts := badges.filterMap (badgePart e)
  if parts = [] then []
  else strL "<span class=" ++ '"' :: strL "bib-links" ++ '"' :: '>' :: joinSpace parts
    ++ strL "</span>"

/-- Uppercase a field name (`field.toUpperCase()`). -/
def upperStr (s : Str) : Str := s.map Char.toUpper

/-- The candidate lookup of `resolveTitleLink` (line 212):
`entry.raw[field] ?? entry.csl[field.toUpperCase()] ?? entry.csl[field]`. -/
def fieldValue (e : Entry) (f : Str) : Option Str :=
  (aget e.raw f).orElse fun _ => (aget e.csl (upperStr f)).orElse fun _ => aget e.csl f

/-- `raw.replace(/^doi:\s*/i, "")`. -/
def stripDoiPre (r : Str) : Str :=
  if (strL "doi:").isPrefixOf (r.map Char.toLower) then (r.drop 4).dropWhile isWsJ else r

/-- `raw.replace(/v\d+$/, "")`: drop one trailing `v` + digits suffix. -/
def stripArxivV (r : Str) : Str :=
  let ds := r.reverse.takeWhile Char.isDigit
  match r.reverse.drop ds.length with
  | 'v' :: rest2 => if ds = [] then r else rest2.reverse
  | _ => r

/-- The candidate loop of `resolveTitleLink` (lines 210-230). -/
def resolveGo (e : Entry) : List Str → Option Str
  | [] => none
  | f :: fs =>
    match fieldValue e f with
    | none => resolveGo e fs
    | some v =>
      if v = [] then resolveGo e fs
      else
        let r := trimL v
        if r = [] then resolveGo e fs
        else if hasHttpPre r || hasMailtoPre r then sanitizeUrl r
        else if f = strL "doi" then sanitizeUrl (strL "https://doi.org/" ++ stripDoiPre r)
        else if f = strL "arxiv" then
          sanitizeUrl (strL "https://arxiv.org/abs/" ++ stripArxivV r)
        else resolveGo e fs

/-- `Bibliography.resolveTitleLink` (lines 206-231); `fields` is the
`titleLink` option, defaulting to `["url", "doi", "arxiv"]`. -/
def resolveTitleLink (e : Entry) (fields : Option (List Str)) : Option Str :=
  resolveGo e (fields.getD [strL "url", strL "doi", strL "arxiv"])

/-- Prepend a string onto the first token of a token list (used to describe
how adjacent text merges under retokenization). -/
def headPre (u : Str) : List Str → List Str
  | [] => [u]
  | h :: t => (u ++ h) :: t

/-- A well-formed tag token: `<`, then a `>`-free body, then `>`. -/
def WFTag (t : Str) : Prop :=
  ∃ mid, t = '<' :: mid ++ ['>'] ∧ '>' ∉ mid

/-- The shape of `splitTags` output on inputs with no dangling `<`:
alternating `<`-free text tokens and well-formed tag tokens, ending in a
`<`-free text token. -/
inductive SplitShape : List Str → Prop where
  | last (t : Str) : '<' ∉ t → SplitShape [t]
  | cons (pre tag : Str) (rest : List Str) :
      '<' ∉ pre → WFTag tag → SplitShape rest → SplitShape (pre :: tag :: rest)

/-- The token list of `acc ++ linkifyTextF n s ++ v`, given the token list `k`
of `v`: mirrors `linkifyTextF`, accumulating the pending text run in `acc`. -/
def linkTokensAcc : Nat → Str → Str → List Str → List Str
  | _, acc, [], k => headPre acc k
  | 0, acc, s, k => headPre (acc ++ s) k
  | n + 1, acc, c :: rest, k =>
    match urlMatchAt (c :: rest) with
    | none => linkTokensAcc n (acc ++ [c]) rest k
    | some (m, r) =>
      acc :: aOpen (trimPunct m).1 :: (trimPunct m).1 :: strL "</a>" ::
        linkTokensAcc n (trimPunct m).2 r k

/-- The token list of `linkifyBareUrls` output, computed from the input's
token list and scan state. -/
def retok : List Str → LSt → List Str
  | [], _ => [[]]
  | tok :: toks, st =>
    if isTagTok tok then [] :: tok :: retok toks (updLSt tok st)
    else if lact st then headPre tok (retok toks st)
    else linkTokensAcc tok.length [] tok (retok toks st)

/-! ## Association list lemmas -/

theorem aget_aset (m : List (Str × Str)) (f k v : Str) :
    aget (aset m f v) k = if f = k then some v else aget m k := by
  induction m with
  | nil =>
    simp only [aset, aget]
  | cons kv rest ih =>
    obtain ⟨k', v'⟩ := kv
    by_cases h : k' = f
    · subst h
      simp only [aset, if_pos rfl, aget]
      by_cases h2 : k' = k <;> simp [h2]
    · simp only [aset, if_neg h, aget, ih]
      by_cases h2 : k' = k
      · subst h2
        have : ¬ f = k' := fun hh => h hh.symm
        simp [this]
      · simp [h2]

theorem mkCustom_foldl_keys (raw : List (Str × Str)) (names : List Str)
    (acc : List (Str × Str)) (k : Str) :
    (∃ v, aget (names.foldl
        (fun acc f => match aget raw f with | some v => aset acc f v | none => acc) acc) k
      = some v)
      ↔ (∃ v, aget acc k = some v) ∨ (k ∈ names ∧ ∃ v, aget raw k = some v) := by
  induction names generalizing acc with
  | nil => simp
  | cons f fs ih =>
    simp only [List.foldl_cons, ih, List.mem_cons]
    cases hr : aget raw f with
    | none =>
      constructor
      · rintro (h | h)
        · exact Or.inl h
        · exact Or.inr ⟨Or.inr h.1, h.2⟩
      · rintro (h | ⟨hf | hf, hv⟩)
        · exact Or.inl h
        · subst hf
          obtain ⟨v, hv⟩ := hv
          rw [hv] at hr
          exact absurd hr (by simp)
        · exact Or.inr ⟨hf, hv⟩
    | some v =>
      constructor
      · rintro (h | h)
        · obtain ⟨w, hw⟩ := h
          rw [aget_aset] at hw
          by_cases hfk : f = k
          · subst hfk
            exact Or.inr ⟨Or.inl rfl, ⟨v, hr⟩⟩
          · rw [if_neg hfk] at hw
            exact Or.inl ⟨w, hw⟩
        · exact Or.inr ⟨Or.inr h.1, h.2⟩
      · rintro (h | ⟨hf | hf, hv⟩)
        · obtain ⟨w, hw⟩ := h
          by_cases hfk : f = k
          · subst hfk
            exact Or.inl ⟨v, by rw [aget_aset, if_pos rfl]⟩
          · exact Or.inl ⟨w, by rw [aget_aset, if_neg hfk]; exact hw⟩
        · subst hf
          exact Or.inl ⟨v, by rw [aget_aset, if_pos rfl]⟩
        · exact Or.inr ⟨hf, hv⟩

/-- C2: the key set of `entry.custom` is exactly the intersection of the
declared custom-field names and the key set of the raw record: a key is bound
in the constructed `custom` map iff it is a declared name that is bound in the
raw record — never a proper subset, never a superset. -/
theorem custom_keys_iff (names : List Str) (raw : List (Str × Str)) (k : Str) :
    (∃ v, aget (mkCustom names raw) k = some v)
      ↔ k ∈ names ∧ ∃ v, aget raw k = some v := by
  have h := mkCustom_foldl_keys raw names [] k
  simpa [mkCustom, aget] using h

/-- C7: `sanitizeUrl` trims whitespace and returns `none` when the trimmed
candidate is empty; it returns the trimmed candidate exactly when it starts
with the case-insensitive scheme `http://`, `https://` or `mailto:`, and
`none` for every other scheme — in particular `javascript:alert(1)` is
rejected while `https://x` and `mailto:a@b.com` are accepted. -/
theorem sanitizeUrl_spec (s : Str) :
    (trimL s = [] → sanitizeUrl s = none) ∧
    (trimL s ≠ [] → (hasHttpPre (trimL s) || hasMailtoPre (trimL s)) = true →
      sanitizeUrl s = some (trimL s)) ∧
    ((hasHttpPre (trimL s) || hasMailtoPre (trimL s)) = false → sanitizeUrl s = none) ∧
    sanitizeUrl (strL "javascript:alert(1)") = none ∧
    sanitizeUrl (strL "https://x") = some (strL "https://x") ∧
    sanitizeUrl (strL "mailto:a@b.com") = some (strL "mailto:a@b.com") ∧
    sanitizeUrl (strL "  https://x ") = some (strL "https://x") := by
  refine ⟨?_, ?_, ?_, by decide, by decide, by decide, by decide⟩
  · intro h
    simp [sanitizeUrl, h]
  · intro h1 h2
    simp [sanitizeUrl, h1, h2]
  · intro h
    simp [sanitizeUrl, h]

/-- Witness for C7 at concrete inputs. -/
theorem sanitizeUrl_spec_w :
    (trimL (strL " ") = [] ∧ sanitizeUrl (strL " ") = none) ∧
    (trimL (strL " ftp://x ") ≠ [] ∧ sanitizeUrl (strL " ftp://x ") = none) :=
  ⟨⟨by decide, (sanitizeUrl_spec (strL " ")).1 (by decide)⟩,
   ⟨by decide, (sanitizeUrl_spec (strL " ftp://x ")).2.2.1 (by decide)⟩⟩

/-- C9: `filter` returns exactly the entries whose `custom` map equals every
criterion (conjunctively, by exact string equality), as an order-preserving
selection; empty criteria return all entries unchanged, and criteria no entry
satisfies return the empty list. -/
theorem filter_spec :
    (∀ entries : List Entry, filterEntries entries [] = entries) ∧
    (∀ entries criteria, (filterEntries entries criteria).Sublist entries) ∧
    (∀ entries criteria (e : Entry),
      e ∈ filterEntries entries criteria ↔
        e ∈ entries ∧ ∀ kv ∈ criteria, aget e.custom kv.1 = some kv.2) ∧
    (∀ entries criteria,
      (∀ e ∈ entries, ∃ kv ∈ criteria, aget e.custom kv.1 ≠ some kv.2) →
      filterEntries entries criteria = []) := by
  refine ⟨?_, ?_, ?_, ?_⟩
  · intro entries
    simp [filterEntries]
  · intro entries criteria
    exact List.filter_sublist _
  · intro entries criteria e
    simp [filterEntries, List.mem_filter, List.all_eq_true]
  · intro entries criteria h
    rw [filterEntries, List.filter_eq_nil_iff]
    intro e he
    obtain ⟨kv, hkv, hne⟩ := h e he
    simp only [List.all_eq_true, beq_iff_eq]
    intro hall
    exact hne (hall kv hkv)

/-! ## Hashing: style registration names (C3) -/

theorem hexDig_inj : ∀ x < 16, ∀ y < 16, hexDig x = hexDig y → x = y := by decide

theorem hexRev_eq_nil {f n : Nat} (hf : n ≤ f) (h : hexRev f n = []) : n = 0 := by
  cases f with
  | zero => omega
  | succ f =>
    by_cases hn : n = 0
    · exact hn
    · rw [hexRev, if_neg hn] at h
      exact absurd h (by simp)

theorem hexRev_inj : ∀ f1 n1, n1 ≤ f1 → ∀ f2 n2, n2 ≤ f2 →
    hexRev f1 n1 = hexRev f2 n2 → n1 = n2 := by
  intro f1
  induction f1 with
  | zero =>
    intro n1 h1 f2 n2 h2 h
    have hn1 : n1 = 0 := by omega
    subst hn1
    exact (hexRev_eq_nil h2 (by rw [← h]; rfl)).symm
  | succ f ih =>
    intro n1 h1 f2 n2 h2 h
    by_cases hn1 : n1 = 0
    · subst hn1
      rw [hexRev, if_pos rfl] at h
      exact (hexRev_eq_nil h2 h.symm).symm
    · cases f2 with
      | zero =>
        have : n2 = 0 := by omega
        subst this
        exact absurd (hexRev_eq_nil h1 h) hn1
      | succ g =>
        by_cases hn2 : n2 = 0
        · subst hn2
          rw [hexRev, if_neg hn1, hexRev, if_pos rfl] at h
          exact absurd h (by simp)
        · rw [hexRev, if_neg hn1, hexRev, if_neg hn2] at h
          have hd : hexDig (n1 % 16) = hexDig (n2 % 16) := by
            exact (List.cons.injEq _ _ _ _ ▸ h).1
          have ht : hexRev f (n1 / 16) = hexRev g (n2 / 16) := by
            exact (List.cons.injEq _ _ _ _ ▸ h).2
          have hmod : n1 % 16 = n2 % 16 :=
            hexDig_inj _ (Nat.mod_lt _ (by omega)) _ (Nat.mod_lt _ (by omega)) hd
          have hdiv : n1 / 16 = n2 / 16 := by
            refine ih (n1 / 16) ?_ g (n2 / 16) ?_ ht
            · have := Nat.div_lt_self (Nat.pos_of_ne_zero hn1) (by omega : 1 < 16)
              omega
            · have := Nat.div_lt_self (Nat.pos_of_ne_zero hn2) (by omega : 1 < 16)
              omega
          omega

theorem toHex_inj {a b : Nat} (h : toHex a = toHex b) : a = b := by
  by_cases ha : a = 0 <;> by_cases hb : b = 0
  · omega
  · exfalso
    subst ha
    rw [toHex, if_pos rfl, toHex, if_neg hb] at h
    have : hexRev b b = ['0'] := by
      have := congrArg List.reverse h
      simpa using this.symm
    cases b with
    | zero => omega
    | succ g =>
      rw [hexRev, if_neg hb] at this
      have hd : hexDig ((g + 1) % 16) = '0' := (List.cons.injEq _ _ _ _ ▸ this).1
      have ht : hexRev g ((g + 1) / 16) = [] := (List.cons.injEq _ _ _ _ ▸ this).2
      have hdiv : (g + 1) / 16 = 0 := by
        refine hexRev_eq_nil ?_ ht
        have := Nat.div_lt_self (by omega : 0 < g + 1) (by omega : 1 < 16)
        omega
      have hlt : g + 1 < 16 := by
        have := Nat.div_eq_of_lt (by omega : g + 1 < 16)
        by_contra hge
        have : 16 ≤ g + 1 := by omega
        have := Nat.le_div_iff_mul_le (by omega : 0 < 16) |>.2 (by omega : 1 * 16 ≤ g + 1)
        omega
      have hmod : (g + 1) % 16 = g + 1 := Nat.mod_eq_of_lt hlt
      rw [hmod] at hd
      have : g + 1 = 0 := hexDig_inj _ hlt 0 (by omega) (by simpa using hd)
      omega
  · exfalso
    subst hb
    rw [toHex, if_neg ha, toHex, if_pos rfl] at h
    have : hexRev a a = ['0'] := by
      have := congrArg List.reverse h
      simpa using this
    cases a with
    | zero => omega
    | succ g =>
      rw [hexRev, if_neg ha] at this
      have hd : hexDig ((g + 1) % 16) = '0' := (List.cons.injEq _ _ _ _ ▸ this).1
      have ht : hexRev g ((g + 1) / 16) = [] := (List.cons.injEq _ _ _ _ ▸ this).2
      have hdiv : (g + 1) / 16 = 0 := by
        refine hexRev_eq_nil ?_ ht
        have := Nat.div_lt_self (by omega : 0 < g + 1) (by omega : 1 < 16)
        omega
      have hlt : g + 1 < 16 := by
        by_contra hge
        have : 16 ≤ g + 1 := by omega
        have := Nat.le_div_iff_mul_le (by omega : 0 < 16) |>.2 (by omega : 1 * 16 ≤ g + 1)
        omega
      have hmod : (g + 1) % 16 = g + 1 := Nat.mod_eq_of_lt hlt
      rw [hmod] at hd
      have : g + 1 = 0 := hexDig_inj _ hlt 0 (by omega) (by simpa using hd)
      omega
  · rw [toHex, if_neg ha, toHex, if_neg hb] at h
    have := List.reverse_injective h
    exact hexRev_inj a a le_rfl b b le_rfl this

/-- C3 (counterexample): the registration name is not an injective function of
the style text — the 32-bit FNV-1a hash collides, e.g. on `"costarring"` and
`"liquid"`, so two distinct raw styles receive the same registration name. -/
theorem styleName_not_injective :
    styleName (strL "costarring") = styleName (strL "liquid") ∧
    strL "costarring" ≠ strL "liquid" := by
  constructor
  · decide
  · decide

/-- C3 (amended): the registration name is a deterministic, content-addressed
function of the style text — two texts receive the same name exactly when
their 32-bit FNV-1a hashes agree. Identical text therefore always yields the
same name, but the scheme is not injective: distinct texts can collide. -/
theorem styleName_eq_iff_hash_eq (a b : Str) :
    styleName a = styleName b ↔ hashString a = hashString b := by
  constructor
  · intro h
    exact toHex_inj (List.append_cancel_left h)
  · intro h
    rw [styleName, styleName, h]

/-! ## Sorting (C1) -/

theorem strLtB_asymm : ∀ a b : Str, strLtB a b = true → strLtB b a = false := by
  intro a
  induction a with
  | nil =>
    intro b h
    cases b with
    | nil => simp [strLtB] at h
    | cons d ds => simp [strLtB]
  | cons c cs ih =>
    intro b h
    cases b with
    | nil => simp [strLtB] at h
    | cons d ds =>
      simp only [strLtB] at h ⊢
      rcases Nat.lt_trichotomy c.toNat d.toNat with h1 | h1 | h1
      · rw [if_neg (by omega), if_pos h1]
      · rw [if_neg (by omega), if_neg (by omega)] at h
        rw [if_neg (by omega), if_neg (by omega)]
        exact ih ds h
      · rw [if_neg (by omega), if_pos h1] at h
        simp at h

theorem strLtB_trans : ∀ a b c : Str, strLtB a b = true → strLtB b c = true →
    strLtB a c = true := by
  intro a
  induction a with
  | nil =>
    intro b c h1 h2
    cases b with
    | nil => simp [strLtB] at h1
    | cons d ds =>
      cases c with
      | nil => simp [strLtB] at h2
      | cons e es => simp [strLtB]
  | cons x xs ih =>
    intro b c h1 h2
    cases b with
    | nil => simp [strLtB] at h1
    | cons d ds =>
      cases c with
      | nil => simp [strLtB] at h2
      | cons e es =>
        simp only [strLtB] at h1 h2 ⊢
        rcases Nat.lt_trichotomy x.toNat d.toNat with hxd | hxd | hxd
        · rcases Nat.lt_trichotomy d.toNat e.toNat with hde | hde | hde
          · rw [if_pos (by omega)]
          · rw [if_pos (by omega)]
          · rw [if_neg (by omega), if_pos hde] at h2
            simp at h2
        · rcases Nat.lt_trichotomy d.toNat e.toNat with hde | hde | hde
          · rw [if_pos (by omega)]
          · rw [if_neg (by omega), if_neg (by omega)] at h1 h2
            rw [if_neg (by omega), if_neg (by omega)]
            exact ih ds es h1 h2
          · rw [if_neg (by omega), if_pos hde] at h2
            simp at h2
        · rw [if_neg (by omega), if_pos hxd] at h1
          simp at h1

theorem strLtB_connex : ∀ a b : Str, strLtB a b = false → strLtB b a = false → a = b := by
  intro a
  induction a with
  | nil =>
    intro b h1 h2
    cases b with
    | nil => rfl
    | cons d ds => simp [strLtB] at h1
  | cons c cs ih =>
    intro b h1 h2
    cases b with
    | nil => simp [strLtB] at h2
    | cons d ds =>
      simp only [strLtB] at h1 h2
      rcases Nat.lt_trichotomy c.toNat d.toNat with hcd | hcd | hcd
      · rw [if_pos hcd] at h1
        simp at h1
      · rw [if_neg (by omega), if_neg (by omega)] at h1 h2
        have hc : c = d := Char.eq_of_val_eq (UInt32.ext hcd)
        rw [hc, ih ds h1 h2]
      · rw [if_pos hcd] at h2
        simp at h2

theorem svLt_asymm : ∀ u v : SVal, svLt u v = true → svLt v u = false := by
  intro u v h
  cases u with
  | num a =>
    cases v with
    | num b => simp [svLt] at h ⊢; omega
    | str t => simp [svLt]
  | str s =>
    cases v with
    | num b => simp [svLt] at h
    | str t => exact strLtB_asymm s t h

theorem svLt_trans : ∀ u v w : SVal, svLt u v = true → svLt v w = true →
    svLt u w = true := by
  intro u v w h1 h2
  cases u with
  | num a =>
    cases v with
    | num b =>
      cases w with
      | num c => simp [svLt] at h1 h2 ⊢; omega
      | str t => simp [svLt]
    | str t =>
      cases w with
      | num c => simp [svLt] at h2
      | str t2 => simp [svLt]
  | str s =>
    cases v with
    | num b => simp [svLt] at h1
    | str t =>
      cases w with
      | num c => simp [svLt] at h2
      | str t2 => exact strLtB_trans s t t2 h1 h2

theorem svLt_connex : ∀ u v : SVal, svLt u v = false → svLt v u = false → u = v := by
  intro u v h1 h2
  cases u with
  | num a =>
    cases v with
    | num b => simp [svLt] at h1 h2 ⊢; omega
    | str t => simp [svLt] at h1
  | str s =>
    cases v with
    | num b => simp [svLt] at h2
    | str t => rw [strLtB_connex s t h1 h2]

theorem insertE_congr (f g : Entry → Entry → Bool) (hfg : ∀ a b, f a b = g a b) (x : Entry) :
    ∀ S, insertE f x S = insertE g x S := by
  intro S
  induction S with
  | nil => rfl
  | cons y ys ih => simp only [insertE, hfg, ih]

theorem insSort_congr (f g : Entry → Entry → Bool) (hfg : ∀ a b, f a b = g a b) :
    ∀ l, insSort f l = insSort g l := by
  intro l
  induction l with
  | nil => rfl
  | cons x xs ih => simp only [insSort, ih, insertE_congr f g hfg]

theorem insertE_mem (lt : Entry → Entry → Bool) (x : Entry) :
    ∀ S y, y ∈ insertE lt x S ↔ y = x ∨ y ∈ S := by
  intro S
  induction S with
  | nil => intro y; simp [insertE]
  | cons z zs ih =>
    intro y
    simp only [insertE]
    by_cases h : lt z x
    · simp [h, ih]
      tauto
    · simp [h]

theorem insSort_mem (lt : Entry → Entry → Bool) :
    ∀ l y, y ∈ insSort lt l ↔ y ∈ l := by
  intro l
  induction l with
  | nil => intro y; simp [insSort]
  | cons x xs ih =>
    intro y
    simp only [insSort, insertE_mem, ih, List.mem_cons]

theorem insertE_past_all (lt : Entry → Entry → Bool) (x : Entry) :
    ∀ L, (∀ z ∈ L, lt z x = true) → insertE lt x L = L ++ [x] := by
  intro L
  induction L with
  | nil => intro _; rfl
  | cons z zs ih =>
    intro h
    have hz : lt z x = true := h z (by simp)
    simp only [insertE, hz, if_true, List.cons_append, List.cons.injEq, true_and]
    exact ih fun w hw => h w (by simp [hw])

theorem insertE_before_last (lt : Entry → Entry → Bool) (x y : Entry) (h : lt y x = false) :
    ∀ L, insertE lt x (L ++ [y]) = insertE lt x L ++ [y] := by
  intro L
  induction L with
  | nil => simp [insertE, h]
  | cons z zs ih =>
    simp only [List.cons_append, insertE]
    by_cases hz : lt z x
    · simp [hz, ih]
    · simp [hz]

theorem insertE_sorted (sortBy : Str) (x : Entry) :
    ∀ S : List Entry,
      S.Pairwise (fun a b => svLt (sortVal sortBy b) (sortVal sortBy a) = false) →
      (insertE (fun a b => svLt (sortVal sortBy a) (sortVal sortBy b)) x S).Pairwise
        (fun a b => svLt (sortVal sortBy b) (sortVal sortBy a) = false) := by
  intro S
  induction S with
  | nil =>
    intro _
    simp [insertE]
  | cons y ys ih =>
    intro hs
    rw [List.pairwise_cons] at hs
    obtain ⟨hy, hys⟩ := hs
    simp only [insertE]
    by_cases hyx : svLt (sortVal sortBy y) (sortVal sortBy x) = true
    · rw [if_pos hyx]
      refine List.Pairwise.cons ?_ (ih hys)
      intro z hz
      rcases (insertE_mem _ x ys z).mp hz with rfl | hz'
      · exact svLt_asymm _ _ hyx
      · exact hy z hz'
    · rw [if_neg hyx]
      have hyx' : svLt (sortVal sortBy y) (sortVal sortBy x) = false := by
        revert hyx
        cases svLt (sortVal sortBy y) (sortVal sortBy x) <;> simp
      refine List.Pairwise.cons ?_ (List.Pairwise.cons hy hys)
      intro z hz
      rcases List.mem_cons.mp hz with rfl | hz'
      · exact hyx'
      · by_contra hc
        have hzx : svLt (sortVal sortBy z) (sortVal sortBy x) = true := by
          revert hc
          cases svLt (sortVal sortBy z) (sortVal sortBy x) <;> simp
        by_cases hxy : svLt (sortVal sortBy x) (sortVal sortBy y) = true
        · have : svLt (sortVal sortBy z) (sortVal sortBy y) = true :=
            svLt_trans _ _ _ hzx hxy
          rw [hy z hz'] at this
          exact absurd this (by simp)
        · have hxy' : svLt (sortVal sortBy x) (sortVal sortBy y) = false := by
            revert hxy
            cases svLt (sortVal sortBy x) (sortVal sortBy y) <;> simp
          have heq := svLt_connex _ _ hxy' hyx'
          rw [heq] at hzx
          rw [hy z hz'] at hzx
          exact absurd hzx (by simp)

theorem insSort_sorted (sortBy : Str) :
    ∀ l : List Entry,
      (insSort (fun a b => svLt (sortVal sortBy a) (sortVal sortBy b)) l).Pairwise
        (fun a b => svLt (sortVal sortBy b) (sortVal sortBy a) = false) := by
  intro l
  induction l with
  | nil => simp [insSort]
  | cons x xs ih => exact insertE_sorted sortBy x _ ih

theorem insertE_reverse (sortBy : Str) (x : Entry) :
    ∀ S : List Entry,
      S.Pairwise (fun a b => svLt (sortVal sortBy b) (sortVal sortBy a) = false) →
      (∀ y ∈ S, sortVal sortBy x ≠ sortVal sortBy y) →
      (insertE (fun a b => svLt (sortVal sortBy a) (sortVal sortBy b)) x S).reverse
        = insertE (fun a b => svLt (sortVal sortBy b) (sortVal sortBy a)) x S.reverse := by
  intro S
  induction S with
  | nil =>
    intro _ _
    rfl
  | cons y ys ih =>
    intro hs hd
    rw [List.pairwise_cons] at hs
    obtain ⟨hy, hys⟩ := hs
    simp only [insertE]
    by_cases hyx : svLt (sortVal sortBy y) (sortVal sortBy x) = true
    · rw [if_pos hyx]
      have hxy : svLt (sortVal sortBy x) (sortVal sortBy y) = false := svLt_asymm _ _ hyx
      rw [List.reverse_cons, List.reverse_cons,
        insertE_before_last _ _ _ hxy, ih hys fun z hz => hd z (by simp [hz])]
    · rw [if_neg hyx]
      have hyx' : svLt (sortVal sortBy y) (sortVal sortBy x) = false := by
        revert hyx
        cases svLt (sortVal sortBy y) (sortVal sortBy x) <;> simp
      have hxy : svLt (sortVal sortBy x) (sortVal sortBy y) = true := by
        by_contra hc
        have hxy' : svLt (sortVal sortBy x) (sortVal sortBy y) = false := by
          revert hc
          cases svLt (sortVal sortBy x) (sortVal sortBy y) <;> simp
        exact absurd (svLt_connex _ _ hxy' hyx') (hd y (by simp))
      have hall : ∀ z ∈ ys.reverse ++ [y],
          svLt (sortVal sortBy x) (sortVal sortBy z) = true := by
        intro z hz
        rcases List.mem_append.mp hz with hz' | hz'
        · rw [List.mem_reverse] at hz'
          by_cases hyz : svLt (sortVal sortBy y) (sortVal sortBy z) = true
          · exact svLt_trans _ _ _ hxy hyz
          · have hyz' : svLt (sortVal sortBy y) (sortVal sortBy z) = false := by
              revert hyz
              cases svLt (sortVal sortBy y) (sortVal sortBy z) <;> simp
            have heq := svLt_connex _ _ (hy z hz') hyz'
            rw [heq]
            exact hxy
        · have : z = y := by simpa using hz'
          subst this
          exact hxy
      rw [List.reverse_cons, List.reverse_cons, insertE_past_all _ _ _ hall]

theorem insSort_reverse (sortBy : Str) :
    ∀ l : List Entry,
      l.Pairwise (fun a b => sortVal sortBy a ≠ sortVal sortBy b) →
      (insSort (fun a b => svLt (sortVal sortBy a) (sortVal sortBy b)) l).reverse
        = insSort (fun a b => svLt (sortVal sortBy b) (sortVal sortBy a)) l := by
  intro l
  induction l with
  | nil =>
    intro _
    rfl
  | cons x xs ih =>
    intro h
    rw [List.pairwise_cons] at h
    obtain ⟨hx, hxs⟩ := h
    simp only [insSort]
    rw [insertE_reverse sortBy x _ (insSort_sorted sortBy xs)
      (fun y hy => hx y ((insSort_mem _ xs y).mp hy)), ih hxs]

theorem sortEntries_asc_eq (l : List Entry) (sortBy : Str) :
    sortEntries l sortBy (strL "asc")
      = insSort (fun a b => svLt (sortVal sortBy a) (sortVal sortBy b)) l := by
  rw [sortEntries]
  apply insSort_congr
  intro a b
  have hao : (strL "asc" = strL "desc") = False := by simp [strL]
  rw [if_neg (by simp [hao])]
  rw [cmpE]
  by_cases hab : svLt (sortVal sortBy a) (sortVal sortBy b) = true
  · rw [if_pos hab, hab]
    decide
  · have hab' : svLt (sortVal sortBy a) (sortVal sortBy b) = false := by
      revert hab
      cases svLt (sortVal sortBy a) (sortVal sortBy b) <;> simp
    rw [if_neg (by simp [hab']), hab']
    by_cases hba : svLt (sortVal sortBy b) (sortVal sortBy a) = true
    · rw [if_pos hba]
      decide
    · rw [if_neg hba]
      decide

theorem sortEntries_desc_eq (l : List Entry) (sortBy : Str) :
    sortEntries l sortBy (strL "desc")
      = insSort (fun a b => svLt (sortVal sortBy b) (sortVal sortBy a)) l := by
  rw [sortEntries]
  apply insSort_congr
  intro a b
  rw [if_pos rfl, cmpE]
  by_cases hab : svLt (sortVal sortBy a) (sortVal sortBy b) = true
  · rw [if_pos hab, svLt_asymm _ _ hab]
    decide
  · have hab' : svLt (sortVal sortBy a) (sortVal sortBy b) = false := by
      revert hab
      cases svLt (sortVal sortBy a) (sortVal sortBy b) <;> simp
    rw [if_neg (by simp [hab'])]
    by_cases hba : svLt (sortVal sortBy b) (sortVal sortBy a) = true
    · rw [if_pos hba, hba]
      decide
    · have hba' : svLt (sortVal sortBy b) (sortVal sortBy a) = false := by
        revert hba
        cases svLt (sortVal sortBy b) (sortVal sortBy a) <;> simp
      rw [if_neg (by simp [hba']), hba']
      decide

/-- C1 (counterexample): with two entries tied on the sort key, sorting
ascending and reversing does not give the descending key sequence — the stable
sort keeps ties in input order in both directions, and reversal flips them. -/
theorem sort_asc_reverse_ne_desc_cex :
    (sortEntries [⟨strL "a", some 2000, [], [], []⟩, ⟨strL "b", some 2000, [], [], []⟩]
        (strL "year") (strL "asc")).reverse.map Entry.key
      ≠ (sortEntries [⟨strL "a", some 2000, [], [], []⟩, ⟨strL "b", some 2000, [], [], []⟩]
        (strL "year") (strL "desc")).map Entry.key := by
  decide

/-- C1 (amended): for every entry list whose sort-key values are pairwise
distinct (no ties) and every sort field, sorting with order `"asc"` and then
reversing the key sequence yields exactly the key sequence produced by sorting
with order `"desc"`; with ties the two sequences differ by the order of the
tied block, as the stable sort preserves input order in both directions. -/
theorem sort_asc_reverse_eq_desc (l : List Entry) (sortBy : Str)
    (h : l.Pairwise fun a b => sortVal sortBy a ≠ sortVal sortBy b) :
    (sortEntries l sortBy (strL "asc")).reverse.map Entry.key
      = (sortEntries l sortBy (strL "desc")).map Entry.key := by
  rw [sortEntries_asc_eq, sortEntries_desc_eq, insSort_reverse sortBy l h]

/-- Witness for the amended C1 at a concrete tie-free entry list. -/
theorem sort_asc_reverse_eq_desc_w :
    ([(⟨strL "a", some 2001, [], [], []⟩ : Entry), ⟨strL "b", some 1999, [], [], []⟩,
        ⟨strL "c", some 2000, [], [], []⟩].Pairwise
      fun a b => sortVal (strL "year") a ≠ sortVal (strL "year") b) ∧
    (sortEntries [⟨strL "a", some 2001, [], [], []⟩, ⟨strL "b", some 1999, [], [], []⟩,
        ⟨strL "c", some 2000, [], [], []⟩] (strL "year") (strL "asc")).reverse.map Entry.key
      = (sortEntries [⟨strL "a", some 2001, [], [], []⟩, ⟨strL "b", some 1999, [], [], []⟩,
        ⟨strL "c", some 2000, [], [], []⟩] (strL "year") (strL "desc")).map Entry.key :=
  ⟨by decide, sort_asc_reverse_eq_desc _ _ (by decide)⟩

/-! ## Badge rendering (C6) -/

theorem dollarExpand_no_dollar (m p q : Str) :
    ∀ repl, '$' ∉ repl → dollarExpand m p q repl = repl := by
  intro repl
  induction repl with
  | nil =>
    intro _
    rfl
  | cons c r ih =>
    intro h
    have hc : c ≠ '$' := fun e => h (e ▸ List.mem_cons_self c r)
    cases r with
    | nil => rfl
    | cons d r2 =>
      simp only [dollarExpand, if_neg hc]
      rw [ih fun hm => h (List.mem_cons_of_mem c hm)]

theorem subDollar1A_plain (insert : Str) (hins : '$' ∉ insert) :
    ∀ n url acc, url.length ≤ n → subDollar1A insert acc url = plainSub1 insert url := by
  intro n
  induction n with
  | zero =>
    intro url acc h
    cases url with
    | nil => rfl
    | cons c r => simp at h
  | succ k ih =>
    intro url acc h
    match url with
    | [] => rfl
    | [c] => rfl
    | c :: d :: r =>
      by_cases hc : c = '$'
      · by_cases hd : d = '1'
        · subst hc
          subst hd
          rw [show subDollar1A insert acc ('$' :: '1' :: r)
              = dollarExpand (strL "$1") acc r insert
                ++ subDollar1A insert (acc ++ strL "$1") r from by
            simp [subDollar1A]]
          rw [show plainSub1 insert ('$' :: '1' :: r) = insert ++ plainSub1 insert r from by
            simp [plainSub1]]
          rw [dollarExpand_no_dollar _ _ _ insert hins,
            ih r _ (by simp at h; omega)]
        · simp only [subDollar1A, plainSub1, if_neg hd]
          split
          · rw [ih (d :: r) _ (by simp at h ⊢; omega)]
          · rw [ih (d :: r) _ (by simp at h ⊢; omega)]
      · simp only [subDollar1A, plainSub1, if_neg hc]
        rw [ih (d :: r) _ (by simp at h ⊢; omega)]

/-- C6 (counterexample): when the inserted field value contains a JavaScript
replacement-pattern escape (here `$&`), the produced badge href is not the URL
template with the insertion value substituted for the placeholder —
`String.replace` expands `$&` to the matched text `$1` first. -/
theorem renderBadges_dollar_cex :
    renderBadges ⟨strL "k", none, [], [(strL "x", strL "a$&b")], []⟩
        [⟨strL "x", strL "L", strL "https://e/$1", none, none⟩]
      ≠ strL "<span class=" ++ '"' :: strL "bib-links" ++ '"' :: '>' ::
        (strL "<a href=" ++ '"' ::
          escapeAttr (plainSub1 (strL "a$&b") (strL "https://e/$1"))
          ++ '"' :: '>' :: escapeHtml (strL "L") ++ strL "</a>") ++ strL "</span>" := by
  decide

/-- C6 (amended): for every entry and badge descriptor whose field value is
present (raw, falling back to custom): a validating pattern that does not
match suppresses the badge; on a match the insertion value is the first
capture group when present, else the whole match; the badge href is the URL
template with the insertion value substituted for every `$1` occurrence
provided the insertion value contains no `$` (otherwise JavaScript
replacement-escape expansion applies); and if zero descriptors produce
output the result is the empty string with no wrapping container. -/
theorem renderBadges_spec :
    (∀ (e : Entry) (b : Badge) (f : Str → Option (Str × Option Str)) (val : Str),
      (aget e.raw b.field).orElse (fun _ => aget e.custom b.field) = some val →
      b.mtch = some f → f val = none → badgePart e b = none) ∧
    (∀ (e : Entry) (b : Badge) (f : Str → Option (Str × Option Str)) (val w : Str)
        (g : Option Str),
      (aget e.raw b.field).orElse (fun _ => aget e.custom b.field) = some val →
      b.mtch = some f → f val = some (w, g) →
      badgePart e b = badgeFinish b (g.getD w)) ∧
    (∀ url insert : Str, '$' ∉ insert → subDollar1 url insert = plainSub1 insert url) ∧
    (∀ (e : Entry) (badges : List Badge),
      badges.filterMap (badgePart e) = [] → renderBadges e badges = []) := by
  refine ⟨?_, ?_, ?_, ?_⟩
  · intro e b f val hv hm hf
    rw [badgePart, hv, hm]
    simp only [hf]
  · intro e b f val w g hv hm hf
    rw [badgePart, hv, hm]
    simp only [hf]
  · intro url insert hins
    exact subDollar1A_plain insert hins url.length url [] le_rfl
  · intro e badges h
    rw [renderBadges]
    simp [h]

/-- Witness for the amended C6: a badge whose validator rejects the field
value produces no part, and the zero-output render is empty. -/
theorem renderBadges_spec_w :
    ((aget (Entry.mk (strL "k") none [] [(strL "zbl", strL "not-a-number")] []).raw
        (strL "zbl")).orElse
        (fun _ => aget (Entry.mk (strL "k") none [] [(strL "zbl", strL "not-a-number")] []).custom
          (strL "zbl"))
      = some (strL "not-a-number")) ∧
    badgePart (Entry.mk (strL "k") none [] [(strL "zbl", strL "not-a-number")] [])
      (Badge.mk (strL "zbl") (strL "zbMATH") (strL "https://zbmath.org/?q=an:$1")
        (some fun _ => none) none) = none ∧
    renderBadges (Entry.mk (strL "k") none [] [(strL "zbl", strL "not-a-number")] [])
      [Badge.mk (strL "zbl") (strL "zbMATH") (strL "https://zbmath.org/?q=an:$1")
        (some fun _ => none) none] = [] := by
  refine ⟨by decide, ?_, ?_⟩
  · exact renderBadges_spec.1 _ _ (fun _ => none) (strL "not-a-number") (by decide) rfl rfl
  · refine renderBadges_spec.2.2.2 _ _ ?_
    rw [List.filterMap]
    rw [renderBadges_spec.1 _ _ (fun _ => none) (strL "not-a-number") (by decide) rfl rfl]
    rfl

/-! ## Title-link resolution (C8) -/

theorem isPrefixOf_head {a : Char} {as s : Str}
    (h : (a :: as).isPrefixOf s = true) : ∃ t, s = a :: t := by
  cases s with
  | nil => simp [List.isPrefixOf] at h
  | cons x t =>
    simp only [List.isPrefixOf, Bool.and_eq_true, beq_iff_eq] at h
    exact ⟨t, by rw [← h.1]⟩

/-- C8: under the default candidate order (url, doi, arxiv), an entry whose
raw doi field yields `10.1/x` after the `doi:`-prefix strip, and which has no
url or arxiv value, resolves its title link to `https://doi.org/10.1/x`; that
URL is written into the title anchor's href verbatim (attribute escaping
leaves it unchanged). -/
theorem resolveTitleLink_doi (e : Entry) (v : Str)
    (hurl : fieldValue e (strL "url") = none)
    (_harx : fieldValue e (strL "arxiv") = none)
    (hdoi : fieldValue e (strL "doi") = some v)
    (hval : stripDoiPre (trimL v) = strL "10.1/x") :
    resolveTitleLink e none = some (strL "https://doi.org/10.1/x") ∧
    escapeAttr (strL "https://doi.org/10.1/x") = strL "https://doi.org/10.1/x" := by
  refine ⟨?_, by decide⟩
  have hvne : v ≠ [] := by
    intro h
    subst h
    exact absurd hval (by decide)
  have hrne : trimL v ≠ [] := by
    intro h
    rw [h] at hval
    exact absurd hval (by decide)
  have hpre : hasHttpPre (trimL v) = false ∧ hasMailtoPre (trimL v) = false := by
    by_cases hd : (strL "doi:").isPrefixOf ((trimL v).map Char.toLower) = true
    · have hdc : strL "doi:" = 'd' :: strL "oi:" := rfl
      rw [hdc] at hd
      obtain ⟨t, ht⟩ := isPrefixOf_head hd
      constructor
      · rw [hasHttpPre, ht]
        rw [(rfl : strL "http://" = 'h' :: strL "ttp://"),
          (rfl : strL "https://" = 'h' :: strL "ttps://")]
        simp [List.isPrefixOf]
      · rw [hasMailtoPre, ht, (rfl : strL "mailto:" = 'm' :: strL "ailto:")]
        simp [List.isPrefixOf]
    · rw [stripDoiPre, if_neg (by simpa using hd)] at hval
      rw [hval]
      exact ⟨by decide, by decide⟩
  rw [resolveTitleLink]
  show resolveGo e (strL "url" :: strL "doi" :: strL "arxiv" :: []) = _
  rw [resolveGo, hurl]
  show resolveGo e (strL "doi" :: strL "arxiv" :: []) = _
  rw [resolveGo, hdoi]
  show (if v = [] then resolveGo e [strL "arxiv"] else _) = _
  rw [if_neg hvne]
  show (if trimL v = [] then resolveGo e [strL "arxiv"]
    else if (hasHttpPre (trimL v) || hasMailtoPre (trimL v)) = true then sanitizeUrl (trimL v)
    else if strL "doi" = strL "doi" then
      sanitizeUrl (strL "https://doi.org/" ++ stripDoiPre (trimL v))
    else if strL "doi" = strL "arxiv" then
      sanitizeUrl (strL "https://arxiv.org/abs/" ++ stripArxivV (trimL v))
    else resolveGo e [strL "arxiv"]) = _
  rw [if_neg hrne, if_neg (by rw [hpre.1, hpre.2]; simp), if_pos rfl, hval]
  decide

/-- Witness for C8 at a concrete entry. -/
theorem resolveTitleLink_doi_w :
    (fieldValue ⟨strL "k", none, [], [(strL "doi", strL "doi: 10.1/x")], []⟩ (strL "url") = none
      ∧ fieldValue ⟨strL "k", none, [], [(strL "doi", strL "doi: 10.1/x")], []⟩ (strL "arxiv")
        = none
      ∧ stripDoiPre (trimL (strL "doi: 10.1/x")) = strL "10.1/x") ∧
    resolveTitleLink ⟨strL "k", none, [], [(strL "doi", strL "doi: 10.1/x")], []⟩ none
      = some (strL "https://doi.org/10.1/x") :=
  ⟨⟨by decide, by decide, by decide⟩,
    (resolveTitleLink_doi ⟨strL "k", none, [], [(strL "doi", strL "doi: 10.1/x")], []⟩
      (strL "doi: 10.1/x") (by decide) (by decide) (by decide) (by decide)).1⟩

/-- Witness for C9 at concrete inputs. -/
theorem filter_spec_w :
    (∀ e ∈ [(⟨strL "a", none, [(strL "s", strL "p")], [], []⟩ : Entry)],
        ∃ kv ∈ [(strL "s", strL "q")], aget e.custom kv.1 ≠ some kv.2) ∧
    filterEntries [⟨strL "a", none, [(strL "s", strL "p")], [], []⟩]
        [(strL "s", strL "q")] = [] :=
  ⟨by decide, filter_spec.2.2.2 _ _ (by decide)⟩

/-! ## Tokenizer: basic lemmas about `splitTags` -/

theorem isPrefixOf_self_append (p x : Str) : p.isPrefixOf (p ++ x) = true := by
  induction p with
  | nil => simp [List.isPrefixOf]
  | cons a as ih => simp [List.isPrefixOf, ih]

theorem isPrefixOf_decomp {p s : Str} (h : p.isPrefixOf s = true) :
    s = p ++ s.drop p.length := by
  induction p generalizing s with
  | nil => simp
  | cons a as ih =>
    cases s with
    | nil => simp [List.isPrefixOf] at h
    | cons b bs =>
      simp only [List.isPrefixOf, Bool.and_eq_true, beq_iff_eq] at h
      obtain ⟨rfl, h2⟩ := h
      simpa using ih h2

theorem isPrefixOf_append_mono {p s : Str} (q : Str) (h : p.isPrefixOf s = true) :
    p.isPrefixOf (s ++ q) = true := by
  induction p generalizing s with
  | nil => simp [List.isPrefixOf]
  | cons a as ih =>
    cases s with
    | nil => simp [List.isPrefixOf] at h
    | cons b bs =>
      simp only [List.isPrefixOf, Bool.and_eq_true, beq_iff_eq] at h ⊢
      exact ⟨h.1, ih h.2⟩

theorem splitAtGt_some : ∀ {s ins after : Str}, splitAtGt s = some (ins, after) →
    s = ins ++ '>' :: after ∧ '>' ∉ ins := by
  intro s
  induction s with
  | nil =>
    intro ins after h
    simp [splitAtGt] at h
  | cons c rest ih =>
    intro ins after h
    by_cases hc : c = '>'
    · subst hc
      rw [splitAtGt, if_pos rfl] at h
      obtain ⟨rfl, rfl⟩ := by simpa using h
      simp
    · rw [splitAtGt, if_neg hc] at h
      cases hr : splitAtGt rest with
      | none => rw [hr] at h; simp at h
      | some pr =>
        rw [hr] at h
        obtain ⟨ins', after'⟩ := pr
        obtain ⟨h1, h2⟩ := by simpa using h
        obtain ⟨hd, hni⟩ := ih hr
        subst h2
        constructor
        · rw [← h1]
          simp [hd]
        · rw [← h1]
          simp only [List.mem_cons, not_or]
          exact ⟨fun e => hc e.symm, hni⟩

theorem splitAtGt_none : ∀ {s : Str}, splitAtGt s = none → '>' ∉ s := by
  intro s
  induction s with
  | nil =>
    intro _
    simp
  | cons c rest ih =>
    intro h
    by_cases hc : c = '>'
    · subst hc
      rw [splitAtGt, if_pos rfl] at h
      simp at h
    · rw [splitAtGt, if_neg hc] at h
      cases hr : splitAtGt rest with
      | none =>
        simp only [List.mem_cons, not_or]
        exact ⟨fun e => hc e.symm, ih hr⟩
      | some pr => rw [hr] at h; simp at h

theorem splitAtGt_wf : ∀ (mid v : Str), '>' ∉ mid →
    splitAtGt (mid ++ '>' :: v) = some (mid, v) := by
  intro mid
  induction mid with
  | nil =>
    intro v _
    simp [splitAtGt]
  | cons c m ih =>
    intro v h
    have hc : c ≠ '>' := fun e => h (e ▸ List.mem_cons_self c m)
    rw [List.cons_append, splitAtGt, if_neg hc,
      ih v fun hm => h (List.mem_cons_of_mem c hm)]
    rfl

theorem findTag_some : ∀ {s pre tag rest : Str}, findTag s = some (pre, tag, rest) →
    s = pre ++ tag ++ rest ∧ '<' ∉ pre ∧ WFTag tag := by
  intro s
  induction s with
  | nil =>
    intro pre tag rest h
    simp [findTag] at h
  | cons c w ih =>
    intro pre tag rest h
    by_cases hc : c = '<'
    · subst hc
      rw [findTag, if_pos rfl] at h
      cases hg : splitAtGt w with
      | none => rw [hg] at h; simp at h
      | some pr =>
        rw [hg] at h
        obtain ⟨ins, after⟩ := pr
        obtain ⟨h1, h2, h3⟩ := by simpa using h
        obtain ⟨hd, hni⟩ := splitAtGt_some hg
        subst h1
        subst h3
        refine ⟨?_, by simp, ins, by simp [← h2], by simp [← h2, hni]⟩
        rw [← h2]
        simp [hd]
    · rw [findTag, if_neg hc] at h
      cases hf : findTag w with
      | none => rw [hf] at h; simp at h
      | some pr =>
        rw [hf] at h
        obtain ⟨pre', tag', rest'⟩ := pr
        obtain ⟨h1, h2, h3⟩ := by simpa using h
        obtain ⟨hd, hnp, hwf⟩ := ih hf
        subst h2
        subst h3
        constructor
        · rw [← h1, List.cons_append, List.cons_append, ← hd]
        · rw [← h1]
          simp only [List.mem_cons, not_or]
          exact ⟨⟨fun e => hc e.symm, hnp⟩, hwf⟩

theorem findTag_cons_lt (rest : Str) :
    findTag ('<' :: rest) =
      match splitAtGt rest with
      | some (ins, after) => some ([], '<' :: ins ++ ['>'], after)
      | none => none := rfl

theorem findTag_wf (a v : Str) (h : WFTag a) : findTag (a ++ v) = some ([], a, v) := by
  obtain ⟨mid, rfl, hmid⟩ := h
  have h1 : ('<' :: mid ++ ['>']) ++ v = '<' :: (mid ++ '>' :: v) := by simp
  rw [h1, findTag_cons_lt, splitAtGt_wf mid v hmid]

theorem noDangling_suffix : ∀ {x y : Str}, noDangling (x ++ y) = true → noDangling y = true := by
  intro x
  induction x with
  | nil => intro y h; exact h
  | cons c w ih =>
    intro y h
    rw [List.cons_append, noDangling, Bool.and_eq_true] at h
    exact ih h.2

theorem findTag_none_noDangling : ∀ {s : Str}, findTag s = none → noDangling s = true →
    '<' ∉ s := by
  intro s
  induction s with
  | nil =>
    intro _ _
    simp
  | cons c w ih =>
    intro h hnd
    rw [noDangling, Bool.and_eq_true] at hnd
    by_cases hc : c = '<'
    · subst hc
      rw [findTag, if_pos rfl] at h
      cases hg : splitAtGt w with
      | none =>
        have : '>' ∉ w := splitAtGt_none hg
        have hcont : w.contains '>' = true := by simpa using hnd.1
        rw [List.contains_eq_any_beq] at hcont
        simp only [List.any_eq_true, beq_iff_eq] at hcont
        obtain ⟨x, hx, rfl⟩ := hcont
        exact absurd hx this
      | some pr => rw [hg] at h; simp at h
    · rw [findTag, if_neg hc] at h
      cases hf : findTag w with
      | none =>
        simp only [List.mem_cons, not_or]
        exact ⟨fun e => hc e.symm, ih hf hnd.2⟩
      | some pr => rw [hf] at h; simp at h

theorem findTag_length {s pre tag rest : Str} (h : findTag s = some (pre, tag, rest)) :
    rest.length + 2 ≤ s.length := by
  obtain ⟨hd, _, mid, htag, _⟩ := findTag_some h
  subst htag
  rw [hd]
  simp
  omega

theorem splitTagsF_nil : ∀ n, splitTagsF n [] = [[]] := by
  intro n
  cases n with
  | zero => rfl
  | succ k => rfl

theorem splitTagsF_congr : ∀ n m (s : Str), s.length ≤ n → s.length ≤ m →
    splitTagsF n s = splitTagsF m s := by
  intro n
  induction n with
  | zero =>
    intro m s hn hm
    have : s = [] := by
      cases s with
      | nil => rfl
      | cons c w => simp at hn
    subst this
    rw [splitTagsF_nil, splitTagsF_nil]
  | succ k ih =>
    intro m s hn hm
    cases m with
    | zero =>
      have : s = [] := by
        cases s with
        | nil => rfl
        | cons c w => simp at hm
      subst this
      rw [splitTagsF_nil, splitTagsF_nil]
    | succ j =>
      rw [splitTagsF, splitTagsF]
      cases hf : findTag s with
      | none => rfl
      | some pr =>
        obtain ⟨pre, tag, rest⟩ := pr
        have hlen := findTag_length hf
        show pre :: tag :: splitTagsF k rest = pre :: tag :: splitTagsF j rest
        rw [ih j rest (by omega) (by omega)]

theorem splitTags_none {s : Str} (h : findTag s = none) : splitTags s = [s] := by
  rw [splitTags]
  cases s with
  | nil => rfl
  | cons c w =>
    rw [List.length_cons, splitTagsF, h]

theorem splitTags_some {s pre tag rest : Str} (h : findTag s = some (pre, tag, rest)) :
    splitTags s = pre :: tag :: splitTags rest := by
  have hlen := findTag_length h
  have h1 : s.length = (s.length - 1) + 1 := by omega
  rw [splitTags, h1, splitTagsF, h]
  show pre :: tag :: splitTagsF (s.length - 1) rest = pre :: tag :: splitTags rest
  rw [splitTagsF_congr (s.length - 1) rest.length rest (by omega) le_rfl]
  rfl

theorem splitTags_ne_nil (s : Str) : splitTags s ≠ [] := by
  cases hf : findTag s with
  | none => rw [splitTags_none hf]; simp
  | some pr =>
    obtain ⟨pre, tag, rest⟩ := pr
    rw [splitTags_some hf]
    simp

theorem flatten_splitTags_aux : ∀ n (s : Str), s.length ≤ n → (splitTags s).flatten = s := by
  intro n
  induction n with
  | zero =>
    intro s h
    have : s = [] := by
      cases s with
      | nil => rfl
      | cons c w => simp at h
    subst this
    rfl
  | succ k ih =>
    intro s h
    cases hf : findTag s with
    | none => rw [splitTags_none hf]; simp
    | some pr =>
      obtain ⟨pre, tag, rest⟩ := pr
      have hlen := findTag_length hf
      rw [splitTags_some hf, List.flatten_cons, List.flatten_cons,
        ih rest (by omega), (findTag_some hf).1, List.append_assoc]

theorem flatten_splitTags (s : Str) : (splitTags s).flatten = s :=
  flatten_splitTags_aux s.length s le_rfl

theorem headPre_headPre (a b : Str) (k : List Str) :
    headPre a (headPre b k) = headPre (a ++ b) k := by
  cases k with
  | nil => simp [headPre]
  | cons h t => simp [headPre]

theorem splitTags_cons_not_lt {c : Char} (hc : c ≠ '<') (w : Str) :
    splitTags (c :: w) = headPre [c] (splitTags w) := by
  cases hf : findTag w with
  | none =>
    have : findTag (c :: w) = none := by rw [findTag, if_neg hc, hf]; rfl
    rw [splitTags_none this, splitTags_none hf]
    rfl
  | some pr =>
    obtain ⟨pre, tag, rest⟩ := pr
    have : findTag (c :: w) = some (c :: pre, tag, rest) := by
      rw [findTag, if_neg hc, hf]
      rfl
    rw [splitTags_some this, splitTags_some hf]
    rfl

theorem splitTags_not_lt_append : ∀ {u : Str}, '<' ∉ u → ∀ (v : Str),
    splitTags (u ++ v) = headPre u (splitTags v) := by
  intro u
  induction u with
  | nil =>
    intro _ v
    rw [List.nil_append]
    cases hk : splitTags v with
    | nil => exact absurd hk (splitTags_ne_nil v)
    | cons h t => simp [headPre]
  | cons c w ih =>
    intro hu v
    have hc : c ≠ '<' := fun e => hu (e ▸ List.mem_cons_self c w)
    rw [List.cons_append, splitTags_cons_not_lt hc,
      ih (fun hm => hu (List.mem_cons_of_mem c hm)) v, headPre_headPre]
    rfl

theorem splitTags_wf_append {a : Str} (ha : WFTag a) (v : Str) :
    splitTags (a ++ v) = [] :: a :: splitTags v :=
  splitTags_some (findTag_wf a v ha)

theorem splitShape_splitTags_aux : ∀ n (s : Str), s.length ≤ n → noDangling s = true →
    SplitShape (splitTags s) := by
  intro n
  induction n with
  | zero =>
    intro s h hnd
    have : s = [] := by
      cases s with
      | nil => rfl
      | cons c w => simp at h
    subst this
    exact SplitShape.last [] (by simp)
  | succ k ih =>
    intro s h hnd
    cases hf : findTag s with
    | none =>
      rw [splitTags_none hf]
      exact SplitShape.last s (findTag_none_noDangling hf hnd)
    | some pr =>
      obtain ⟨pre, tag, rest⟩ := pr
      have hlen := findTag_length hf
      obtain ⟨hd, hnp, hwf⟩ := findTag_some hf
      rw [splitTags_some hf]
      refine SplitShape.cons pre tag _ hnp hwf (ih rest (by omega) ?_)
      have : noDangling ((pre ++ tag) ++ rest) = true := by
        rw [← hd]
        exact hnd
      exact noDangling_suffix this

theorem splitShape_splitTags (s : Str) (hnd : noDangling s = true) :
    SplitShape (splitTags s) :=
  splitShape_splitTags_aux s.length s le_rfl hnd

/-! ## Title linking (C4) -/

theorem matchAtP_decomp : ∀ (pat : List (List Str)) (s m : Str),
    matchAtP pat s = some m → ∃ r, s = m ++ r := by
  intro pat
  induction pat with
  | nil =>
    intro s m h
    rw [matchAtP] at h
    obtain rfl : ([] : Str) = m := by simpa using h
    exact ⟨s, rfl⟩
  | cons alts ps ih =>
    intro s m h
    rw [matchAtP] at h
    obtain ⟨a, _, hfa⟩ := List.exists_of_findSome?_eq_some h
    by_cases hp : a.isPrefixOf s = true
    · rw [if_pos hp] at hfa
      cases hm : matchAtP ps (s.drop a.length) with
      | none => rw [hm] at hfa; simp at hfa
      | some m' =>
        rw [hm] at hfa
        obtain rfl : a ++ m' = m := by simpa using hfa
        obtain ⟨r, hr⟩ := ih _ _ hm
        refine ⟨r, ?_⟩
        calc s = a ++ s.drop a.length := isPrefixOf_decomp hp
          _ = a ++ (m' ++ r) := by rw [← hr]
          _ = (a ++ m') ++ r := by rw [List.append_assoc]
    · rw [if_neg hp] at hfa
      simp at hfa

theorem firstMatchSplit_decomp : ∀ (pat : List (List Str)) (s pre m post : Str),
    firstMatchSplit pat s = some (pre, m, post) → s = pre ++ m ++ post := by
  intro pat s
  induction s with
  | nil =>
    intro pre m post h
    rw [firstMatchSplit] at h
    cases hm : matchAtP pat [] with
    | none => rw [hm] at h; simp at h
    | some m' =>
      rw [hm] at h
      obtain ⟨r, hr⟩ := matchAtP_decomp pat [] m' hm
      have hm0 : m' = [] := by
        cases m' with
        | nil => rfl
        | cons x xs => simp at hr
      subst hm0
      obtain ⟨rfl, rfl, rfl⟩ := by simpa using h
      rfl
  | cons c rest ih =>
    intro pre m post h
    rw [firstMatchSplit] at h
    cases hm : matchAtP pat (c :: rest) with
    | some m' =>
      rw [hm] at h
      obtain ⟨r, hr⟩ := matchAtP_decomp _ _ _ hm
      obtain ⟨rfl, rfl, rfl⟩ := by simpa using h
      rw [List.nil_append]
      calc c :: rest = m' ++ r := hr
        _ = m' ++ (c :: rest).drop m'.length := by rw [hr, List.drop_left]
    | none =>
      rw [hm] at h
      cases hf : firstMatchSplit pat rest with
      | none => rw [hf] at h; simp at h
      | some pr =>
        rw [hf] at h
        obtain ⟨p', m', r'⟩ := pr
        obtain ⟨rfl, rfl, rfl⟩ := by simpa using h
        have := ih p' m' r' hf
        simp [this]

theorem procTitle_linked (pat : List (List Str)) (url : Str) :
    ∀ toks (st : TSt), st.linked = true → procTitle pat url toks st = toks := by
  intro toks
  induction toks with
  | nil =>
    intro st _
    rfl
  | cons tok toks ih =>
    intro st hl
    rw [procTitle]
    by_cases ht : isTagTok tok = true
    · rw [if_pos ht, ih _ (by simpa using hl)]
    · rw [if_neg ht, if_pos (by rw [hl]; rfl), ih _ hl]

theorem procTitle_noMatch (pat : List (List Str)) (url : Str) :
    ∀ toks (st : TSt), anyEligMatch pat toks st = false →
      procTitle pat url toks st = toks := by
  intro toks
  induction toks with
  | nil =>
    intro st _
    rfl
  | cons tok toks ih =>
    intro st h
    rw [procTitle]
    rw [anyEligMatch] at h
    by_cases ht : isTagTok tok = true
    · rw [if_pos ht] at h ⊢
      rw [ih _ h]
    · rw [if_neg ht] at h ⊢
      by_cases hb : (st.linked || lact st.ls) = true
      · rw [if_pos hb] at h ⊢
        rw [ih _ h]
      · rw [if_neg hb] at h ⊢
        cases hf : firstMatchSplit pat tok with
        | none =>
          rw [hf] at h
          have hrep : replaceFirstTok pat url tok = none := by
            rw [replaceFirstTok, hf]
          simp only [hrep]
          rw [ih _ h]
        | some pr =>
          rw [hf] at h
          simp at h

theorem procTitle_structure (pat : List (List Str)) (url : Str) :
    ∀ toks (st : TSt), st.linked = false →
      procTitle pat url toks st = toks ∨
      ∃ l₁ tok pre m post l₂,
        toks = l₁ ++ tok :: l₂ ∧ tok = pre ++ m ++ post ∧
        firstMatchSplit pat tok = some (pre, m, post) ∧
        procTitle pat url toks st = l₁ ++ (pre ++ titleAnchor url m ++ post) :: l₂ := by
  intro toks
  induction toks with
  | nil =>
    intro st _
    left
    rfl
  | cons tok toks ih =>
    intro st hl
    rw [procTitle]
    by_cases ht : isTagTok tok = true
    · rw [if_pos ht]
      rcases ih ⟨updLSt tok st.ls, st.linked⟩ (by simpa using hl) with h |
        ⟨l₁, tk, pre, m, post, l₂, h1, h2, h3, h4⟩
      · left
        rw [h]
      · right
        exact ⟨tok :: l₁, tk, pre, m, post, l₂, by rw [h1]; rfl, h2, h3, by rw [h4]; rfl⟩
    · rw [if_neg ht]
      by_cases hb : (st.linked || lact st.ls) = true
      · rw [if_pos hb]
        rcases ih st hl with h | ⟨l₁, tk, pre, m, post, l₂, h1, h2, h3, h4⟩
        · left
          rw [h]
        · right
          exact ⟨tok :: l₁, tk, pre, m, post, l₂, by rw [h1]; rfl, h2, h3, by rw [h4]; rfl⟩
      · rw [if_neg hb]
        cases hf : firstMatchSplit pat tok with
        | none =>
          have hrep : replaceFirstTok pat url tok = none := by
            rw [replaceFirstTok, hf]
          simp only [hrep]
          rcases ih st hl with h | ⟨l₁, tk, pre, m, post, l₂, h1, h2, h3, h4⟩
          · left
            rw [h]
          · right
            exact ⟨tok :: l₁, tk, pre, m, post, l₂, by rw [h1]; rfl, h2, h3, by rw [h4]; rfl⟩
        | some pr =>
          obtain ⟨pre, m, post⟩ := pr
          have hrep : replaceFirstTok pat url tok
              = some (pre ++ titleAnchor url m ++ post) := by
            rw [replaceFirstTok, hf]
          simp only [hrep]
          right
          refine ⟨[], tok, pre, m, post, toks, rfl,
            firstMatchSplit_decomp pat tok pre m post hf, hf, ?_⟩
          rw [procTitle_linked pat url toks ⟨st.ls, true⟩ rfl]
          rfl

/-- C4: title linking inserts at most one anchor. If the pattern built from
the title matches in no text token scanned with the anchor/script/style states
inactive, the output equals the input exactly; otherwise the output is the
input token list with exactly one token — the first eligible one with a match
— rewritten around its leftmost match, and every other token (in particular
every later one) emitted unchanged. -/
theorem linkTitle_once (html title url : Str) :
    (anyEligMatch (buildHtmlTextPattern title) (splitTags html)
        ⟨⟨false, false, false⟩, false⟩ = false →
      linkTitle html title url = html) ∧
    (linkTitle html title url = html ∨
      ∃ l₁ tok pre m post l₂,
        splitTags html = l₁ ++ tok :: l₂ ∧ tok = pre ++ m ++ post ∧
        firstMatchSplit (buildHtmlTextPattern title) tok = some (pre, m, post) ∧
        linkTitle html title url
          = (l₁ ++ (pre ++ titleAnchor url m ++ post) :: l₂).flatten) := by
  constructor
  · intro h
    simp only [linkTitle]
    by_cases hp : buildHtmlTextPattern title = []
    · rw [if_pos hp]
    · rw [if_neg hp, procTitle_noMatch _ _ _ _ h, flatten_splitTags]
  · simp only [linkTitle]
    by_cases hp : buildHtmlTextPattern title = []
    · rw [if_pos hp]
      left
      rfl
    · rw [if_neg hp]
      rcases procTitle_structure (buildHtmlTextPattern title) url (splitTags html)
          ⟨⟨false, false, false⟩, false⟩ rfl
        with h | ⟨l₁, tok, pre, m, post, l₂, h1, h2, h3, h4⟩
      · left
        rw [h, flatten_splitTags]
      · right
        exact ⟨l₁, tok, pre, m, post, l₂, h1, h2, h3, by rw [h4]⟩

/-! ## URL matching facts shared by C5 and C10 -/

theorem schemeSplit_some {s sch rest : Str} (h : schemeSplit s = some (sch, rest)) :
    (sch = strL "http://" ∨ sch = strL "https://") ∧ s = sch ++ rest := by
  rw [schemeSplit] at h
  by_cases h1 : (strL "https://").isPrefixOf s = true
  · rw [if_pos h1] at h
    obtain ⟨rfl, rfl⟩ := by simpa using h
    refine ⟨Or.inr rfl, ?_⟩
    have := isPrefixOf_decomp h1
    simpa using this
  · rw [if_neg h1] at h
    by_cases h2 : (strL "http://").isPrefixOf s = true
    · rw [if_pos h2] at h
      obtain ⟨rfl, rfl⟩ := by simpa using h
      refine ⟨Or.inl rfl, ?_⟩
      have := isPrefixOf_decomp h2
      simpa using this
    · rw [if_neg h2] at h
      simp at h

theorem urlMatchAt_some {s m r : Str} (h : urlMatchAt s = some (m, r)) :
    ∃ sch u, (sch = strL "http://" ∨ sch = strL "https://") ∧
      m = sch ++ u ∧ u ≠ [] ∧ (∀ c ∈ u, isUrlC c = true) ∧ s = m ++ r := by
  rw [urlMatchAt] at h
  cases hs : schemeSplit s with
  | none => rw [hs] at h; simp at h
  | some pr =>
    rw [hs] at h
    obtain ⟨sch, rest⟩ := pr
    obtain ⟨hsch, hdec⟩ := schemeSplit_some hs
    by_cases hu : rest.takeWhile isUrlC = []
    · simp only [hu, if_pos rfl] at h
      simp at h
    · simp only [if_neg hu] at h
      obtain ⟨rfl, rfl⟩ := by simpa using h
      refine ⟨sch, rest.takeWhile isUrlC, hsch, rfl, hu,
        fun c hc => List.mem_takeWhile_imp hc, ?_⟩
      rw [hdec, List.append_assoc, List.takeWhile_append_dropWhile]

theorem urlMatchAt_none_of_append {p q : Str} (h : urlMatchAt (p ++ q) = none) :
    urlMatchAt p = none := by
  cases hp : urlMatchAt p with
  | none => rfl
  | some pr =>
    exfalso
    obtain ⟨m, r⟩ := pr
    obtain ⟨sch, u, hsch, hm, hune, hu, hdec⟩ := urlMatchAt_some hp
    have hpre : sch.isPrefixOf (p ++ q) = true := by
      have : sch.isPrefixOf p = true := by
        rw [hdec, hm, List.append_assoc]
        exact isPrefixOf_self_append sch (u ++ r)
      exact isPrefixOf_append_mono q this
    have hlen : ∀ x, sch.isPrefixOf x = true → x.drop sch.length = x.drop sch.length := by
      intro x _
      rfl
    obtain ⟨c, u', rfl⟩ : ∃ c u', u = c :: u' := by
      cases u with
      | nil => exact absurd rfl hune
      | cons c u' => exact ⟨c, u', rfl⟩
    have hcu : isUrlC c = true := hu c (by simp)
    have hdrop : (p ++ q).drop sch.length = c :: (u' ++ r ++ q) := by
      rw [hdec, hm]
      rw [List.append_assoc, List.append_assoc, List.drop_left]
      simp
    rw [urlMatchAt] at h
    rcases hsch with rfl | rfl
    · have hnotHttps : (strL "https://").isPrefixOf (p ++ q) = false := by
        have hd : p ++ q = strL "http://" ++ ((c :: u') ++ r ++ q) := by
          rw [hdec, hm]
          simp
        rw [hd]
        rfl
      rw [schemeSplit, hnotHttps] at h
      simp only [Bool.false_eq_true, if_false, hpre, if_pos] at h
      rw [show (strL "http://").length = 7 from rfl] at hdrop
      rw [show ((p ++ q).drop 7) = c :: (u' ++ r ++ q) from hdrop] at h
      rw [List.takeWhile_cons, hcu] at h
      simp at h
    · rw [schemeSplit, hpre] at h
      simp only [if_pos] at h
      rw [show (strL "https://").length = 8 from rfl] at hdrop
      rw [show ((p ++ q).drop 8) = c :: (u' ++ r ++ q) from hdrop] at h
      rw [List.takeWhile_cons, hcu] at h
      simp at h

theorem repC_append (c : Char) (r a b : Str) :
    repC c r (a ++ b) = repC c r a ++ repC c r b := by
  rw [repC, repC, repC, List.flatMap_append]

theorem escapeAttr_append (a b : Str) :
    escapeAttr (a ++ b) = escapeAttr a ++ escapeAttr b := by
  rw [escapeAttr, escapeAttr, escapeAttr, repC_append, repC_append, repC_append]

theorem trimPunct_fst_scheme (sch u : Str)
    (hs : sch = strL "http://" ∨ sch = strL "https://") :
    ∃ u', (trimPunct (sch ++ u)).1 = sch ++ u' := by
  show ∃ u', ((sch ++ u).reverse.dropWhile isPunctT).reverse = sch ++ u'
  rw [List.reverse_append, List.dropWhile_append]
  by_cases he : (u.reverse.dropWhile isPunctT).isEmpty = true
  · rw [if_pos he]
    have hfix : sch.reverse.dropWhile isPunctT = sch.reverse := by
      rcases hs with rfl | rfl <;> decide
    rw [hfix, List.reverse_reverse]
    exact ⟨[], by simp⟩
  · rw [if_neg he, List.reverse_append, List.reverse_reverse]
    exact ⟨(u.reverse.dropWhile isPunctT).reverse, rfl⟩

/-! ## C10: hrefs inserted by the bare-URL linkifier -/

theorem hrefsTextF_scheme : ∀ n (s h : Str), h ∈ hrefsTextF n s →
    (strL "http://").isPrefixOf h = true ∨ (strL "https://").isPrefixOf h = true := by
  intro n
  induction n with
  | zero =>
    intro s h hm
    cases s with
    | nil => simp [hrefsTextF] at hm
    | cons c rest => simp [hrefsTextF] at hm
  | succ k ih =>
    intro s h hm
    cases s with
    | nil => simp [hrefsTextF] at hm
    | cons c rest =>
      rw [hrefsTextF] at hm
      cases hu : urlMatchAt (c :: rest) with
      | none =>
        rw [hu] at hm
        exact ih rest h hm
      | some pr =>
        rw [hu] at hm
        obtain ⟨m, r⟩ := pr
        rcases List.mem_cons.mp hm with rfl | hm'
        · obtain ⟨sch, u, hsch, hmdec, _, _, _⟩ := urlMatchAt_some hu
          rw [hmdec]
          obtain ⟨u', hu'⟩ := trimPunct_fst_scheme sch u hsch
          rw [hu', escapeAttr_append]
          have hesc : escapeAttr sch = sch := by
            rcases hsch with rfl | rfl <;> decide
          rw [hesc]
          rcases hsch with rfl | rfl
          · exact Or.inl (isPrefixOf_self_append _ _)
          · exact Or.inr (isPrefixOf_self_append _ _)
        · exact ih r h hm'

theorem hrefsOfToks_scheme : ∀ (toks : List Str) (st : LSt) (h : Str),
    h ∈ hrefsOfToks toks st →
    (strL "http://").isPrefixOf h = true ∨ (strL "https://").isPrefixOf h = true := by
  intro toks
  induction toks with
  | nil =>
    intro st h hm
    simp [hrefsOfToks] at hm
  | cons tok toks ih =>
    intro st h hm
    rw [hrefsOfToks] at hm
    by_cases ht : isTagTok tok = true
    · rw [if_pos ht] at hm
      exact ih _ h hm
    · rw [if_neg ht] at hm
      by_cases hb : lact st = true
      · rw [if_pos hb] at hm
        exact ih _ h hm
      · rw [if_neg hb] at hm
        rcases List.mem_append.mp hm with hm' | hm'
        · exact hrefsTextF_scheme tok.length tok h hm'
        · exact ih _ h hm'

/-- C10: every `href` attribute value written by `linkifyBareUrls` — the
attribute-escaped, punctuation-trimmed URL match — begins with `http://` or
`https://`; the linkifier can therefore never introduce an anchor with any
other scheme, even though it never calls `sanitizeUrl`. -/
theorem insertedHrefs_scheme (s h : Str) (hm : h ∈ insertedHrefs s) :
    (strL "http://").isPrefixOf h = true ∨ (strL "https://").isPrefixOf h = true :=
  hrefsOfToks_scheme (splitTags s) ⟨false, false, false⟩ h hm

/-- Witness for C10 at a concrete input. -/
theorem insertedHrefs_scheme_w :
    insertedHrefs (strL "see https://example.com. or http://b.c/x)")
      = [strL "https://example.com", strL "http://b.c/x"] ∧
    ((strL "http://").isPrefixOf (strL "https://example.com") = true ∨
      (strL "https://").isPrefixOf (strL "https://example.com") = true) :=
  ⟨by decide,
    insertedHrefs_scheme (strL "see https://example.com. or http://b.c/x)")
      (strL "https://example.com") (by decide)⟩

/-! ## C5 support: fixpoint and state lemmas -/

theorem linkifyTextF_id : ∀ f (u : Str),
    (∀ i < u.length, urlMatchAt (u.drop i) = none) → linkifyTextF f u = u := by
  intro f
  induction f with
  | zero =>
    intro u _
    cases u with
    | nil => rfl
    | cons c r => rfl
  | succ k ih =>
    intro u hu
    cases u with
    | nil => rfl
    | cons c rest =>
      rw [linkifyTextF]
      have h0 : urlMatchAt (c :: rest) = none := by simpa using hu 0 (by simp)
      rw [h0]
      show c :: linkifyTextF k rest = c :: rest
      rw [ih rest fun i hi => by simpa using hu (i + 1) (by simp; omega)]

theorem lact_false {st : LSt} (h : lact st = false) : st = ⟨false, false, false⟩ := by
  obtain ⟨a, s, t⟩ := st
  cases a <;> cases s <;> cases t <;> simp_all [lact]

theorem isTagTok_false {t : Str} (h : '<' ∉ t) : isTagTok t = false := by
  cases t with
  | nil => rfl
  | cons c r =>
    have hc : c ≠ '<' := fun e => h (e ▸ List.mem_cons_self c r)
    simp [isTagTok, hc]

theorem isTagTok_aOpen (u : Str) : isTagTok (aOpen u) = true := rfl

theorem isTagTok_closeA : isTagTok (strL "</a>") = true := rfl

theorem updLSt_aOpen (u : Str) (st : LSt) : updLSt (aOpen u) st = ⟨true, st.scr, st.stl⟩ := by
  have e1 : tagTest (strL "<a") ((aOpen u).map Char.toLower) = true := rfl
  have e2 : tagTest (strL "</a") ((aOpen u).map Char.toLower) = false := rfl
  have e3 : tagTest (strL "<script") ((aOpen u).map Char.toLower) = false := rfl
  have e4 : tagTest (strL "</script") ((aOpen u).map Char.toLower) = false := rfl
  have e5 : tagTest (strL "<style") ((aOpen u).map Char.toLower) = false := rfl
  have e6 : tagTest (strL "</style") ((aOpen u).map Char.toLower) = false := rfl
  simp only [updLSt, e1, e2, e3, e4, e5, e6, if_true, if_false, Bool.false_eq_true]

theorem updLSt_closeA (st : LSt) : updLSt (strL "</a>") st = ⟨false, st.scr, st.stl⟩ := by
  have e1 : tagTest (strL "<a") ((strL "</a>").map Char.toLower) = false := by decide
  have e2 : tagTest (strL "</a") ((strL "</a>").map Char.toLower) = true := by decide
  have e3 : tagTest (strL "<script") ((strL "</a>").map Char.toLower) = false := by decide
  have e4 : tagTest (strL "</script") ((strL "</a>").map Char.toLower) = false := by decide
  have e5 : tagTest (strL "<style") ((strL "</a>").map Char.toLower) = false := by decide
  have e6 : tagTest (strL "</style") ((strL "</a>").map Char.toLower) = false := by decide
  simp only [updLSt, e1, e2, e3, e4, e5, e6, if_true, if_false, Bool.false_eq_true]

theorem trimPunct_decomp (m : Str) : m = (trimPunct m).1 ++ (trimPunct m).2 := by
  show m = (m.reverse.dropWhile isPunctT).reverse ++ (m.reverse.takeWhile isPunctT).reverse
  rw [← List.reverse_append, List.takeWhile_append_dropWhile, List.reverse_reverse]

theorem mem_trimPunct_fst {m : Str} {x : Char} (h : x ∈ (trimPunct m).1) : x ∈ m := by
  rw [trimPunct_decomp m]
  exact List.mem_append.mpr (Or.inl h)

theorem mem_trimPunct_snd {m : Str} {x : Char} (h : x ∈ (trimPunct m).2) : x ∈ m := by
  rw [trimPunct_decomp m]
  exact List.mem_append.mpr (Or.inr h)

theorem trimPunct_snd_punct {m : Str} {x : Char} (h : x ∈ (trimPunct m).2) :
    isPunctT x = true := by
  have : x ∈ m.reverse.takeWhile isPunctT := by
    have := h
    rw [show (trimPunct m).2 = (m.reverse.takeWhile isPunctT).reverse from rfl,
      List.mem_reverse] at this
    exact this
  exact List.mem_takeWhile_imp this

theorem isUrlC_ne {x : Char} (h : isUrlC x = true) : x ≠ '<' ∧ x ≠ '>' ∧ x ≠ '"' := by
  refine ⟨?_, ?_, ?_⟩ <;> intro e <;> subst e <;> exact absurd h (by decide)

theorem urlMatchAt_chars {s m r : Str} (h : urlMatchAt s = some (m, r)) :
    ∀ x ∈ m, x ≠ '<' ∧ x ≠ '>' ∧ x ≠ '"' := by
  obtain ⟨sch, u, hsch, hm, _, hu, _⟩ := urlMatchAt_some h
  intro x hx
  rw [hm] at hx
  rcases List.mem_append.mp hx with hx' | hx'
  · rcases hsch with rfl | rfl
    · exact (by decide : ∀ y ∈ strL "http://", y ≠ '<' ∧ y ≠ '>' ∧ y ≠ '"') x hx'
    · exact (by decide : ∀ y ∈ strL "https://", y ≠ '<' ∧ y ≠ '>' ∧ y ≠ '"') x hx'
  · exact isUrlC_ne (hu x hx')

theorem repC_mem {c : Char} {r s : Str} {x : Char} (h : x ∈ repC c r s) :
    x ∈ r ∨ x ∈ s := by
  rw [repC] at h
  obtain ⟨a, ha, hx⟩ := List.mem_flatMap.mp h
  by_cases hac : a = c
  · rw [if_pos hac] at hx
    exact Or.inl hx
  · rw [if_neg hac] at hx
    obtain rfl : x = a := by simpa using hx
    exact Or.inr ha

theorem escapeAttr_no_gt {u : Str} (hu : '>' ∉ u) : '>' ∉ escapeAttr u := by
  intro h
  rw [escapeAttr] at h
  rcases repC_mem h with h1 | h1
  · exact absurd h1 (by decide)
  · rcases repC_mem h1 with h2 | h2
    · exact absurd h2 (by decide)
    · rcases repC_mem h2 with h3 | h3
      · exact absurd h3 (by decide)
      · exact hu h3

theorem aOpen_wf {u : Str} (hu : '>' ∉ u) : WFTag (aOpen u) := by
  refine ⟨strL "a href=" ++ '"' :: escapeAttr u ++ ['"'], ?_, ?_⟩
  · show aOpen u = '<' :: (strL "a href=" ++ '"' :: escapeAttr u ++ ['"']) ++ ['>']
    rw [aOpen, show strL "<a href=" = '<' :: strL "a href=" from rfl]
    simp
  · intro h
    rcases List.mem_append.mp h with h1 | h1
    · rcases List.mem_append.mp h1 with h2 | h2
      · exact absurd h2 (by decide)
      · rcases List.mem_cons.mp h2 with h3 | h3
        · exact absurd h3 (by decide)
        · exact escapeAttr_no_gt hu h3
    · exact absurd h1 (by decide)

theorem closeA_wf : WFTag (strL "</a>") :=
  ⟨strL "/a", rfl, by decide⟩

theorem splitTags_text {t : Str} (ht : '<' ∉ t) : splitTags t = [t] := by
  have h := splitTags_not_lt_append ht []
  rw [List.append_nil] at h
  rw [h]
  show headPre t [[]] = [t]
  simp [headPre]

theorem procLink_cons_tag {tok : Str} (h1 : isTagTok tok = true) (toks : List Str)
    (st : LSt) : procLink (tok :: toks) st = tok :: procLink toks (updLSt tok st) := by
  simp [procLink, h1]

theorem procLink_cons_active {tok : Str} (h1 : isTagTok tok = false) {st : LSt}
    (h2 : lact st = true) (toks : List Str) :
    procLink (tok :: toks) st = tok :: procLink toks st := by
  simp [procLink, h1, h2]

theorem procLink_cons_text {tok : Str} (h1 : isTagTok tok = false) (toks : List Str) :
    procLink (tok :: toks) ⟨false, false, false⟩
      = linkifyText tok :: procLink toks ⟨false, false, false⟩ := by
  simp [procLink, h1, lact]

theorem urlMatchAt_ne_h {x : Char} (hx : x ≠ 'h') (w : Str) :
    urlMatchAt (x :: w) = none := by
  have hbx : ('h' == x) = false := by
    cases hb : ('h' == x) with
    | false => rfl
    | true => exact absurd (eq_of_beq hb).symm hx
  rw [urlMatchAt, schemeSplit]
  have h1 : (strL "https://").isPrefixOf (x :: w) = false := by
    rw [show strL "https://" = 'h' :: strL "ttps://" from rfl]
    simp [List.isPrefixOf, hbx]
  have h2 : (strL "http://").isPrefixOf (x :: w) = false := by
    rw [show strL "http://" = 'h' :: strL "ttp://" from rfl]
    simp [List.isPrefixOf, hbx]
  rw [h1, h2]
  rfl

theorem isPunctT_ne_h {x : Char} (hx : isPunctT x = true) : x ≠ 'h' := by
  intro e
  subst e
  exact absurd hx (by decide)

theorem isTagTok_wf {t : Str} (h : WFTag t) : isTagTok t = true := by
  obtain ⟨mid, rfl, _⟩ := h
  rfl

/-- Retokenization of one linkified text run: the tag split of
`acc ++ linkifyTextF n s ++ v` is `linkTokensAcc n acc s` applied to the tag
split of `v`, for `<`-free `acc` and `s`. -/
theorem splitTags_linkTokens : ∀ n (s acc v : Str), '<' ∉ acc → '<' ∉ s →
    splitTags (acc ++ linkifyTextF n s ++ v) = linkTokensAcc n acc s (splitTags v) := by
  intro n
  induction n with
  | zero =>
    intro s acc v hacc hs
    cases s with
    | nil =>
      show splitTags (acc ++ [] ++ v) = headPre acc (splitTags v)
      rw [List.append_nil]
      exact splitTags_not_lt_append hacc v
    | cons c rest =>
      show splitTags (acc ++ (c :: rest) ++ v) = headPre (acc ++ (c :: rest)) (splitTags v)
      exact splitTags_not_lt_append
        (by
          intro hm
          rcases List.mem_append.mp hm with h | h
          · exact hacc h
          · exact hs h) v
  | succ k ih =>
    intro s acc v hacc hs
    cases s with
    | nil =>
      show splitTags (acc ++ [] ++ v) = headPre acc (splitTags v)
      rw [List.append_nil]
      exact splitTags_not_lt_append hacc v
    | cons c rest =>
      cases hu : urlMatchAt (c :: rest) with
      | none =>
        have hL : linkifyTextF (k + 1) (c :: rest) = c :: linkifyTextF k rest := by
          rw [linkifyTextF, hu]
        have hR : linkTokensAcc (k + 1) acc (c :: rest) (splitTags v)
            = linkTokensAcc k (acc ++ [c]) rest (splitTags v) := by
          rw [linkTokensAcc, hu]
        rw [hL, hR]
        have hsh : acc ++ (c :: linkifyTextF k rest) ++ v
            = (acc ++ [c]) ++ linkifyTextF k rest ++ v := by
          simp
        rw [hsh]
        refine ih rest (acc ++ [c]) v ?_ fun hm => hs (List.mem_cons_of_mem c hm)
        intro hm
        rcases List.mem_append.mp hm with h | h
        · exact hacc h
        · exact hs (by simpa using Or.inl (by simpa using h))
      | some pr =>
        obtain ⟨m, r⟩ := pr
        have hL : linkifyTextF (k + 1) (c :: rest)
            = anchorFor (trimPunct m).1 ++ (trimPunct m).2 ++ linkifyTextF k r := by
          rw [linkifyTextF, hu]
        have hR : linkTokensAcc (k + 1) acc (c :: rest) (splitTags v)
            = acc :: aOpen (trimPunct m).1 :: (trimPunct m).1 :: strL "</a>" ::
              linkTokensAcc k (trimPunct m).2 r (splitTags v) := by
          rw [linkTokensAcc, hu]
        rw [hL, hR]
        obtain ⟨sch, u, hsch, hm, hune, huc, hdec⟩ := urlMatchAt_some hu
        have hchars := urlMatchAt_chars hu
        have hlt_t : '<' ∉ (trimPunct m).1 :=
          fun hx => ((hchars _ (mem_trimPunct_fst hx)).1 rfl)
        have hgt_t : '>' ∉ (trimPunct m).1 :=
          fun hx => ((hchars _ (mem_trimPunct_fst hx)).2.1 rfl)
        have hlt_tr : '<' ∉ (trimPunct m).2 :=
          fun hx => ((hchars _ (mem_trimPunct_snd hx)).1 rfl)
        have hlt_r : '<' ∉ r := by
          intro hx
          exact hs (by rw [hdec]; exact List.mem_append.mpr (Or.inr hx))
        have hsh : acc ++ (anchorFor (trimPunct m).1 ++ (trimPunct m).2
              ++ linkifyTextF k r) ++ v
            = acc ++ (aOpen (trimPunct m).1 ++ ((trimPunct m).1 ++ (strL "</a>"
              ++ ((trimPunct m).2 ++ (linkifyTextF k r ++ v))))) := by
          simp [anchorFor, List.append_assoc]
        rw [hsh]
        rw [splitTags_not_lt_append hacc]
        rw [splitTags_wf_append (aOpen_wf hgt_t)]
        rw [splitTags_not_lt_append hlt_t]
        rw [splitTags_wf_append closeA_wf]
        have hih : splitTags ((trimPunct m).2 ++ (linkifyTextF k r ++ v))
            = linkTokensAcc k (trimPunct m).2 r (splitTags v) := by
          rw [← List.append_assoc]
          exact ih r (trimPunct m).2 v hlt_tr hlt_r
        rw [hih]
        simp [headPre]

/-- the tag split of `linkifyBareUrls` output, from the input's tokens. -/
theorem splitTags_procLink : ∀ (toks : List Str), SplitShape toks → ∀ (st : LSt),
    splitTags (procLink toks st).flatten = retok toks st := by
  intro toks hshape
  induction hshape with
  | last t ht =>
    intro st
    by_cases hb : lact st = true
    · rw [procLink_cons_active (isTagTok_false ht) hb]
      rw [show procLink [] st = [] from rfl]
      rw [List.flatten_cons, List.flatten_nil, List.append_nil, splitTags_text ht]
      simp [retok, isTagTok_false ht, hb, headPre]
    · have hst : st = ⟨false, false, false⟩ :=
        lact_false (by revert hb; cases lact st <;> simp)
      subst hst
      rw [procLink_cons_text (isTagTok_false ht)]
      rw [show procLink [] ⟨false, false, false⟩ = [] from rfl]
      rw [List.flatten_cons, List.flatten_nil, List.append_nil]
      have h := splitTags_linkTokens t.length t [] [] (by simp) ht
      rw [List.nil_append, List.append_nil] at h
      rw [show linkifyText t = linkifyTextF t.length t from rfl, h]
      rw [show splitTags ([] : Str) = [[]] from splitTagsF_nil 0]
      simp [retok, isTagTok_false ht, lact]
  | cons pre tag rest hpre htag _ ih =>
    intro st
    by_cases hb : lact st = true
    · rw [procLink_cons_active (isTagTok_false hpre) hb,
        procLink_cons_tag (isTagTok_wf htag)]
      rw [List.flatten_cons, List.flatten_cons]
      rw [splitTags_not_lt_append hpre, splitTags_wf_append htag, ih (updLSt tag st)]
      simp [retok, isTagTok_false hpre, hb, isTagTok_wf htag, headPre]
    · have hst : st = ⟨false, false, false⟩ :=
        lact_false (by revert hb; cases lact st <;> simp)
      subst hst
      rw [procLink_cons_text (isTagTok_false hpre),
        procLink_cons_tag (isTagTok_wf htag)]
      rw [List.flatten_cons, List.flatten_cons]
      have h := splitTags_linkTokens pre.length pre []
        (tag ++ (procLink rest (updLSt tag ⟨false, false, false⟩)).flatten) (by simp) hpre
      rw [List.nil_append] at h
      rw [show linkifyText pre = linkifyTextF pre.length pre from rfl, h]
      rw [splitTags_wf_append htag, ih (updLSt tag ⟨false, false, false⟩)]
      simp [retok, isTagTok_false hpre, lact, isTagTok_wf htag]

theorem procLink_headPre_text {acc : Str} {k : List Str}
    (hacc : '<' ∉ acc)
    (hinv : ∀ i, i < acc.length → urlMatchAt (acc.drop i) = none)
    (hk : procLink ([] :: k) ⟨false, false, false⟩ = [] :: k) :
    procLink (headPre acc ([] :: k)) ⟨false, false, false⟩ = headPre acc ([] :: k) := by
  show procLink ((acc ++ []) :: k) ⟨false, false, false⟩ = (acc ++ []) :: k
  rw [List.append_nil]
  rw [procLink_cons_text (isTagTok_false hacc)]
  rw [procLink_cons_text (show isTagTok ([] : Str) = false from rfl)] at hk
  have hk' : procLink k ⟨false, false, false⟩ = k := by
    rw [show linkifyText [] = ([] : Str) from rfl] at hk
    injection hk
  rw [hk']
  rw [show linkifyText acc = linkifyTextF acc.length acc from rfl,
    linkifyTextF_id acc.length acc hinv]

/-- `procLink` run on the token list of an already-linkified text run is the
identity, provided the pending text `acc` has no URL match at any start
position and the continuation is itself fixed. -/
theorem procLink_linkTokens : ∀ n (s acc : Str) (k : List Str),
    s.length ≤ n → '<' ∉ acc → '<' ∉ s →
    (∀ i, i < acc.length → urlMatchAt ((acc ++ s).drop i) = none) →
    procLink ([] :: k) ⟨false, false, false⟩ = [] :: k →
    procLink (linkTokensAcc n acc s ([] :: k)) ⟨false, false, false⟩
      = linkTokensAcc n acc s ([] :: k) := by
  intro n
  induction n with
  | zero =>
    intro s acc k hlen hacc hs hinv hk
    cases s with
    | nil =>
      refine procLink_headPre_text hacc ?_ hk
      intro i hi
      have h := hinv i hi
      rw [List.append_nil] at h
      exact h
    | cons c rest =>
      rw [List.length_cons] at hlen
      omega
  | succ f ih =>
    intro s acc k hlen hacc hs hinv hk
    cases s with
    | nil =>
      refine procLink_headPre_text hacc ?_ hk
      intro i hi
      have h := hinv i hi
      rw [List.append_nil] at h
      exact h
    | cons c rest =>
      cases hu : urlMatchAt (c :: rest) with
      | none =>
        have hlt : linkTokensAcc (f + 1) acc (c :: rest) ([] :: k)
            = linkTokensAcc f (acc ++ [c]) rest ([] :: k) := by
          rw [linkTokensAcc, hu]
        rw [hlt]
        refine ih rest (acc ++ [c]) k ?_ ?_ ?_ ?_ hk
        · rw [List.length_cons] at hlen
          omega
        · intro hm'
          rcases List.mem_append.mp hm' with h | h
          · exact hacc h
          · have hc : c ≠ '<' := fun e => hs (e ▸ List.mem_cons_self c rest)
            exact hc (List.mem_singleton.mp h).symm
        · exact fun hm' => hs (List.mem_cons_of_mem c hm')
        · intro i hi
          rw [List.append_assoc]
          by_cases hic : i < acc.length
          · exact hinv i hic
          · have hie : i = acc.length := by
              rw [List.length_append, List.length_singleton] at hi
              omega
            subst hie
            rw [List.drop_left]
            exact hu
      | some pr =>
        obtain ⟨mt, r⟩ := pr
        have hlt : linkTokensAcc (f + 1) acc (c :: rest) ([] :: k)
            = acc :: aOpen (trimPunct mt).1 :: (trimPunct mt).1 :: strL "</a>" ::
              linkTokensAcc f (trimPunct mt).2 r ([] :: k) := by
          rw [linkTokensAcc, hu]
        rw [hlt]
        obtain ⟨sch, u, hsch, hm, hune, huc, hdec⟩ := urlMatchAt_some hu
        have hchars := urlMatchAt_chars hu
        have hlt_t : '<' ∉ (trimPunct mt).1 :=
          fun hx => ((hchars _ (mem_trimPunct_fst hx)).1 rfl)
        have hlt_tr : '<' ∉ (trimPunct mt).2 :=
          fun hx => ((hchars _ (mem_trimPunct_snd hx)).1 rfl)
        have hlt_r : '<' ∉ r :=
          fun hx => hs (by rw [hdec]; exact List.mem_append.mpr (Or.inr hx))
        have hlen_r : r.length ≤ f := by
          have h1 : (c :: rest).length = mt.length + r.length := by
            rw [hdec, List.length_append]
          have h2 : 1 ≤ mt.length := by
            rw [hm, List.length_append]
            rcases hsch with rfl | rfl <;> simp [strL] <;> omega
          rw [List.length_cons] at hlen h1
          omega
        have hinv' : ∀ i, i < (trimPunct mt).2.length →
            urlMatchAt (((trimPunct mt).2 ++ r).drop i) = none := by
          intro i hi
          have hdl : ((trimPunct mt).2 ++ r).drop i = (trimPunct mt).2.drop i ++ r :=
            List.drop_append_of_le_length (le_of_lt hi)
          cases hdr : (trimPunct mt).2.drop i with
          | nil =>
            exfalso
            have hl := congrArg List.length hdr
            rw [List.length_drop] at hl
            simp at hl
            omega
          | cons x w =>
            have hx : x ∈ (trimPunct mt).2 :=
              List.mem_of_mem_drop (hdr ▸ List.mem_cons_self x w)
            rw [hdl, hdr]
            exact urlMatchAt_ne_h (isPunctT_ne_h (trimPunct_snd_punct hx)) (w ++ r)
        have hrec : procLink (linkTokensAcc f (trimPunct mt).2 r ([] :: k))
              ⟨false, false, false⟩
            = linkTokensAcc f (trimPunct mt).2 r ([] :: k) :=
          ih r (trimPunct mt).2 k hlen_r hlt_tr hlt_r hinv' hk
        have hacc_id : linkifyText acc = acc := by
          refine linkifyTextF_id acc.length acc ?_
          intro i hi
          have h1 := hinv i hi
          rw [List.drop_append_of_le_length (le_of_lt hi)] at h1
          exact urlMatchAt_none_of_append h1
        have hst1 : updLSt (aOpen (trimPunct mt).1) ⟨false, false, false⟩
            = ⟨true, false, false⟩ := updLSt_aOpen _ _
        have hst2 : updLSt (strL "</a>") ⟨true, false, false⟩
            = ⟨false, false, false⟩ := updLSt_closeA _
        rw [procLink_cons_text (isTagTok_false hacc), hacc_id]
        rw [procLink_cons_tag (isTagTok_aOpen _), hst1]
        rw [procLink_cons_active (isTagTok_false hlt_t)
          (show lact ⟨true, false, false⟩ = true from rfl)]
        rw [procLink_cons_tag isTagTok_closeA, hst2]
        rw [hrec]

/-- `procLink` run on its own output tokens is the identity, for any input
token list of alternating shape. -/
theorem procLink_retok : ∀ (toks : List Str), SplitShape toks → ∀ (st : LSt),
    procLink (retok toks st) st = retok toks st := by
  intro toks hshape
  induction hshape with
  | last t ht =>
    intro st
    by_cases hb : lact st = true
    · have hr : retok [t] st = [t] := by
        simp [retok, isTagTok_false ht, hb, headPre]
      rw [hr, procLink_cons_active (isTagTok_false ht) hb]
      rfl
    · have hst : st = ⟨false, false, false⟩ :=
        lact_false (by revert hb; cases lact st <;> simp)
      subst hst
      have hr : retok [t] ⟨false, false, false⟩
          = linkTokensAcc t.length [] t ([] :: []) := by
        simp [retok, isTagTok_false ht, lact]
      rw [hr]
      refine procLink_linkTokens t.length t [] [] le_rfl (by simp) ht
        (by intro i hi; simp at hi) ?_
      rfl
  | cons pre tag rest hpre htag hrest ih =>
    intro st
    by_cases hb : lact st = true
    · have hr : retok (pre :: tag :: rest) st
          = pre :: tag :: retok rest (updLSt tag st) := by
        simp [retok, isTagTok_false hpre, hb, isTagTok_wf htag, headPre]
      rw [hr]
      rw [procLink_cons_active (isTagTok_false hpre) hb]
      rw [procLink_cons_tag (isTagTok_wf htag)]
      rw [ih (updLSt tag st)]
    · have hst : st = ⟨false, false, false⟩ :=
        lact_false (by revert hb; cases lact st <;> simp)
      subst hst
      have hr : retok (pre :: tag :: rest) ⟨false, false, false⟩
          = linkTokensAcc pre.length [] pre
              ([] :: tag :: retok rest (updLSt tag ⟨false, false, false⟩)) := by
        simp [retok, isTagTok_false hpre, lact, isTagTok_wf htag]
      rw [hr]
      refine procLink_linkTokens pre.length pre [] _ le_rfl (by simp) hpre
        (by intro i hi; simp at hi) ?_
      rw [procLink_cons_text (show isTagTok ([] : Str) = false from rfl)]
      rw [procLink_cons_tag (isTagTok_wf htag)]
      rw [ih (updLSt tag ⟨false, false, false⟩)]
      rfl

/-- C5 counterexample: `linkifyBareUrls` is not idempotent. On input
`a<https://y` the dangling `<` keeps the whole string a text token, the URL is
wrapped, and a second run re-wraps the URL inside the malformed
`<<a href=...>` token that the first run created. -/
theorem linkify_not_idempotent_cex :
    linkifyBareUrls (linkifyBareUrls (strL "a<https://y"))
      ≠ linkifyBareUrls (strL "a<https://y") := by
  decide

/-- C5 (amended): on inputs with no dangling `<` (every `<` is eventually
followed by `>`, true of well-formed HTML), `linkifyBareUrls` is idempotent:
running it on its own output changes nothing, so URLs inside the anchors it
inserted are not wrapped again. -/
theorem linkify_idem (s : Str) (h : noDangling s = true) :
    linkifyBareUrls (linkifyBareUrls s) = linkifyBareUrls s := by
  have hshape := splitShape_splitTags s h
  have hA := splitTags_procLink (splitTags s) hshape ⟨false, false, false⟩
  have hB := procLink_retok (splitTags s) hshape ⟨false, false, false⟩
  show (procLink (splitTags (linkifyBareUrls s)) ⟨false, false, false⟩).flatten
    = linkifyBareUrls s
  rw [show splitTags (linkifyBareUrls s)
      = retok (splitTags s) ⟨false, false, false⟩ from hA]
  rw [hB]
  rw [show retok (splitTags s) ⟨false, false, false⟩
      = splitTags (linkifyBareUrls s) from hA.symm]
  exact flatten_splitTags _

theorem linkify_idem_w :
    noDangling (strL "see <b>it</b> at https://ex.org/p, ok") = true ∧
    linkifyBareUrls (linkifyBareUrls (strL "see <b>it</b> at https://ex.org/p, ok"))
      = linkifyBareUrls (strL "see <b>it</b> at https://ex.org/p, ok") :=
  ⟨by decide, linkify_idem (strL "see <b>it</b> at https://ex.org/p, ok") (by decide)⟩

/-- Witness for C4: a title that matches nowhere leaves the html unchanged. -/
theorem linkTitle_once_w :
    anyEligMatch (buildHtmlTextPattern (strL "My Title"))
        (splitTags (strL "no match <b>here</b>")) ⟨⟨false, false, false⟩, false⟩ = false ∧
    linkTitle (strL "no match <b>here</b>") (strL "My Title") (strL "https://u")
      = strL "no match <b>here</b>" :=
  ⟨by decide,
    (linkTitle_once (strL "no match <b>here</b>") (strL "My Title") (strL "https://u")).1
      (by decide)⟩

end CJX


